import Mathlib

/-!
# Merkle Patricia Trie: a shallow embedding of `trie`, `node` and `proof`

The Go program keeps a tree of nodes behind interface pointers and rewrites it
in place.  Nodes built by `Put` are never shared between two parents, so the
heap is modelled as an ordinary inductive tree and `Put` as a function that
returns the rewritten tree.

* A Go panic (a method called on a nil interface value, the explicit
  `panic(...)` statements) is modelled by `none`.
* A byte string is a list of bytes; the nil slice and the empty slice are both
  `[]`.
* `crypto.Keccak256` and `rlp.EncodeToBytes` are parameters (`Externals`); what
  a theorem needs of them is a hypothesis (`Externals.Faithful`).
* The `nibble` package and `BranchNode` are not among the sources and follow
  the specification: a branch has 16 slots and an optional value.
* `trie.VerifyProof` calls go-ethereum's verifier; the verifier here follows
  section 4.4 of the specification, and `Trie.VerifyProof` returns its outcome
  as the Go pair `(value, err)`, in which the outcome `KeyNotProven` is
  `nil, nil`.
-/

namespace MPT

/-- A byte (`byte` in Go). -/
abbrev Byte := Fin 256

/-- A byte string (`[]byte` in Go); the nil slice and the empty slice are both `[]`. -/
abbrev Bytes := List Byte

/-- Modelled from the spec: the `nibble` package is not among the sources.
A nibble is a 4-bit unsigned value (0-15). -/
abbrev Nibble := Fin 16

/-- Modelled from the spec: `nibble.FromByte`; a byte expands to two nibbles,
high nibble first. -/
def FromByte (b : Byte) : List Nibble :=
  [⟨b.val / 16, by have := b.isLt; omega⟩, ⟨b.val % 16, by omega⟩]

/-- Modelled from the spec: `nibble.FromBytes(key) -> Path`; each byte expands
to two nibbles, high nibble first. -/
def FromBytes : Bytes → List Nibble
  | [] => []
  | b :: bs => FromByte b ++ FromBytes bs

/-- Modelled from the spec: `nibble.PrefixMatchedLen(a, b)`; the length of the
longest common prefix of two nibble sequences, comparing element-wise, 0 if
they diverge immediately. -/
def PrefixMatchedLen : List Nibble → List Nibble → Nat
  | a :: as, b :: bs => if a = b then PrefixMatchedLen as bs + 1 else 0
  | _, _ => 0

/-- Modelled from the spec: `nibble.ToPrefixed(path, isLeafTerminator)`; the
flag nibble is `2 * isLeaf + (len path mod 2)`, followed by the path when its
length is odd and by a zero padding nibble and the path when it is even. -/
def ToPrefixed (ns : List Nibble) (isLeafNode : Bool) : List Nibble :=
  if ns.length % 2 = 1 then
    (if isLeafNode then (3 : Nibble) else 1) :: ns
  else
    (if isLeafNode then (2 : Nibble) else 0) :: 0 :: ns

/-- Modelled from the spec: `nibble.ToBytes(path)`; packs an even-length nibble
sequence two per byte, first nibble of a pair in the high bits, and fails on an
odd-length input. -/
def ToBytes : List Nibble → Option Bytes
  | [] => some []
  | [_] => none
  | hi :: lo :: rest =>
    (ToBytes rest).map (fun bs => (⟨hi.val * 16 + lo.val, by omega⟩ : Byte) :: bs)

/-- The four node variants of `node.Node`.  `empty` is the nil interface value.
`leaf` and `ext` are `LeafNode` and `ExtensionNode` of the sources.
Modelled from the spec: `BranchNode` (its file is not among the sources) has 16
child slots, each absent or a node, and an optional value. -/
inductive Node where
  | empty : Node
  | leaf (Path : List Nibble) (Value : Bytes) : Node
  | ext (Path : List Nibble) (Next : Node) : Node
  | branch (Branches : Nibble → Node) (Value : Option Bytes) : Node

instance : Inhabited Node := ⟨Node.empty⟩

/-- `node.IsEmptyNode`: the node is the nil interface value. -/
def IsEmptyNode : Node → Bool
  | .empty => true
  | _ => false

/-- `node.NewLeafNodeFromNibbles`. -/
def NewLeafNodeFromNibbles (nibbles : List Nibble) (value : Bytes) : Node :=
  .leaf nibbles value

/-- `node.NewLeafNodeFromBytes`. -/
def NewLeafNodeFromBytes (key value : Bytes) : Node :=
  NewLeafNodeFromNibbles (FromBytes key) value

/-- `node.NewExtensionNode`. -/
def NewExtensionNode (nibbles : List Nibble) (next : Node) : Node :=
  .ext nibbles next

/-- Modelled from the spec: `node.NewBranchNode`; a branch with all 16 slots
absent and no value. -/
def NewBranchNode : Node :=
  .branch (fun _ => .empty) none

/-- Modelled from the spec: `BranchNode.SetBranch`; puts a node in the slot of a
nibble.  The receiver is always a branch. -/
def SetBranch : Node → Nibble → Node → Node
  | .branch cs val, i, n => .branch (Function.update cs i n) val
  | t, _, _ => t

/-- Modelled from the spec: `BranchNode.SetValue`; sets the value of a branch.
The receiver is always a branch. -/
def SetValue : Node → Bytes → Node
  | .branch cs _, v => .branch cs (some v)
  | t, _ => t

/-- The loop of `Trie.Get`, started at node `root` with the nibbles still to be
consumed.  The result is the pair `(value, found)` of the Go function; a nil
value is `[]`. -/
def getLoop : Node → List Nibble → Bytes × Bool
  | .empty, _ => ([], false)
  | .leaf path value, nibbles =>
    let matched := PrefixMatchedLen path nibbles
    if matched ≠ path.length ∨ matched ≠ nibbles.length then ([], false)
    else (value, true)
  | .branch _ value, [] => (value.getD [], value.isSome)
  | .branch branches _, b :: remaining => getLoop (branches b) remaining
  | .ext path next, nibbles =>
    let matched := PrefixMatchedLen path nibbles
    if matched < path.length then ([], false)
    else getLoop next (nibbles.drop matched)

/-- The part of `Trie.Put` run when the loop stops at a leaf. -/
def putAtLeaf (path : List Nibble) (old : Bytes) (nibbles : List Nibble)
    (value : Bytes) : Node :=
  let matched := PrefixMatchedLen path nibbles
  if matched = nibbles.length ∧ matched = path.length then
    NewLeafNodeFromNibbles path value
  else
    let branch := NewBranchNode
    let branch := if matched = path.length then SetValue branch old else branch
    let branch := if matched = nibbles.length then SetValue branch value else branch
    let branch :=
      if h : matched < path.length then
        SetBranch branch path[matched]
          (NewLeafNodeFromNibbles (path.drop (matched + 1)) old)
      else branch
    let branch :=
      if h : matched < nibbles.length then
        SetBranch branch nibbles[matched]
          (NewLeafNodeFromNibbles (nibbles.drop (matched + 1)) value)
      else branch
    if matched > 0 then NewExtensionNode (path.take matched) branch else branch

/-- The part of `Trie.Put` run when the loop reaches an extension whose path is
not fully matched (`matched < len(ext.Path)`); `none` is the
`panic("too many matched")`. -/
def putSplitExt (path : List Nibble) (next : Node) (nibbles : List Nibble)
    (value : Bytes) (matched : Nat) (h : matched < path.length) : Option Node :=
  let extNibbles := path.take matched
  let branchNibble := path[matched]
  let extRemainingnibbles := path.drop (matched + 1)
  let branch := NewBranchNode
  let branch :=
    if extRemainingnibbles.length = 0 then SetBranch branch branchNibble next
    else SetBranch branch branchNibble (NewExtensionNode extRemainingnibbles next)
  let branch? : Option Node :=
    if h2 : matched < nibbles.length then
      some (SetBranch branch nibbles[matched]
        (NewLeafNodeFromNibbles (nibbles.drop (matched + 1)) value))
    else if matched = nibbles.length then some (SetValue branch value)
    else none
  branch?.map fun branch =>
    if extNibbles.length = 0 then branch else NewExtensionNode extNibbles branch

/-- The loop of `Trie.Put`, started at the node held by the pointer `root`; the
result is the node the pointer holds when the loop returns, `none` when the
loop panics. -/
def putLoop : Node → List Nibble → Bytes → Option Node
  | .empty, nibbles, value => some (NewLeafNodeFromNibbles nibbles value)
  | .leaf path old, nibbles, value => some (putAtLeaf path old nibbles value)
  | .branch branches _, [], value => some (.branch branches (some value))
  | .branch branches val, b :: remaining, value =>
    (putLoop (branches b) remaining value).map fun child =>
      .branch (Function.update branches b child) val
  | .ext path next, nibbles, value =>
    let matched := PrefixMatchedLen path nibbles
    if h : matched < path.length then
      putSplitExt path next nibbles value matched h
    else
      (putLoop next (nibbles.drop matched) value).map fun child => .ext path child

/-- The type `Trie` of the sources: a root node. -/
structure Trie where
  root : Node

/-- `NewTrie`: the root is nil. -/
def NewTrie : Trie := ⟨.empty⟩

/-- `Trie.Get`. -/
def Trie.Get (t : Trie) (key : Bytes) : Bytes × Bool :=
  getLoop t.root (FromBytes key)

/-- `Trie.Put`; the result is the trie after the call, `none` when it panics. -/
def Trie.Put (t : Trie) (key value : Bytes) : Option Trie :=
  (putLoop t.root (FromBytes key) value).map Trie.mk

/-- The trie obtained from a new trie by a sequence of `Put` calls, in list
order. -/
def fromPuts (ops : List (Bytes × Bytes)) : Option Trie :=
  ops.foldlM (fun t kv => t.Put kv.1 kv.2) NewTrie

/-! ## Encoding and hashing of nodes -/

/-- A value handed to the encoder: a byte string (`[]byte`) or a list of such
values (`[]interface{}`). -/
inductive RawItem where
  | bytes (b : Bytes) : RawItem
  | list (items : List RawItem) : RawItem

/-- The two primitives the `node` package takes from go-ethereum:
`crypto.Keccak256` and `rlp.EncodeToBytes` (which does not fail on byte strings
and lists of them). -/
structure Externals where
  Keccak256 : Bytes → Bytes
  EncodeToBytes : RawItem → Bytes

/-- `node.EmptyNodeRaw`. -/
def EmptyNodeRaw : Bytes := []

/-- `node.EmptyNodeHash`, the decoded hex constant. -/
def EmptyNodeHash : Bytes :=
  [0x56, 0xe8, 0x1f, 0x17, 0x1b, 0xcc, 0x55, 0xa6, 0xff, 0x83, 0x45, 0xe6, 0x92, 0xc0, 0xf8, 0x6e,
   0x5b, 0x48, 0xe0, 0x1b, 0x99, 0x6c, 0xad, 0xc0, 0x01, 0x62, 0x2f, 0xb5, 0xe3, 0x63, 0xb4, 0x21]

/-- All entries of a list of optional values, when none is missing. -/
def allSome {α : Type} : List (Option α) → Option (List α)
  | [] => some []
  | none :: _ => none
  | some a :: rest => (allSome rest).map fun l => a :: l

/-- How a parent refers to a non-nil child whose `Raw()` is `r`: by `Hash()`
when `len(Serialize(child)) >= 32`, by `Raw()` itself otherwise. -/
def childRef (X : Externals) (r : List RawItem) : RawItem :=
  if (X.EncodeToBytes (.list r)).length ≥ 32 then
    .bytes (X.Keccak256 (X.EncodeToBytes (.list r)))
  else .list r

/-- The method `Raw()` of the three node types; `none` is a panic (a method
called on a nil node).
`LeafNode.Raw` and `ExtensionNode.Raw` are those of the sources; for a non-nil
`e.Next`, `Serialize(e.Next)` is the encoding of `e.Next.Raw()` and
`e.Next.Hash()` its Keccak256, which is `childRef`.
Modelled from the spec: `BranchNode.Raw`, the 16 child encodings in nibble
order (the empty byte string for an absent child) followed by the value, or the
empty byte string if the value is absent. -/
def Node.Raw (X : Externals) : Node → Option (List RawItem)
  | .empty => none
  | .leaf path value =>
    (ToBytes (ToPrefixed path true)).map fun path => [.bytes path, .bytes value]
  | .ext path next =>
    match ToBytes (ToPrefixed path false), Node.Raw X next with
    | some path, some r => some [.bytes path, childRef X r]
    | _, _ => none
  | .branch branches value =>
    (allSome ((List.finRange 16).map fun i =>
      if IsEmptyNode (branches i) then some (RawItem.bytes EmptyNodeRaw)
      else (Node.Raw X (branches i)).map (childRef X))).map
      fun hashes => hashes ++ [.bytes (value.getD [])]

/-- `node.Serialize`. -/
def Serialize (X : Externals) (node : Node) : Option Bytes :=
  if IsEmptyNode node then some (X.EncodeToBytes (.bytes EmptyNodeRaw))
  else (Node.Raw X node).map fun raw => X.EncodeToBytes (.list raw)

/-- The method `Hash()` of the three node types: `crypto.Keccak256` of the
serialized node; `none` on a nil node. -/
def Node.Hash (X : Externals) (node : Node) : Option Bytes :=
  if IsEmptyNode node then none else (Serialize X node).map X.Keccak256

/-- `node.Hash`. -/
def Hash (X : Externals) (node : Node) : Option Bytes :=
  if IsEmptyNode node then some EmptyNodeHash else Node.Hash X node

/-- `Trie.Hash`. -/
def Trie.Hash (X : Externals) (t : Trie) : Option Bytes :=
  if IsEmptyNode t.root then some EmptyNodeHash else Node.Hash X t.root

/-! ## The proof store -/

/-- The lowercase hexadecimal digit of a nibble. -/
def hexDigit (n : Nibble) : Char :=
  if n.val < 10 then Char.ofNat (48 + n.val) else Char.ofNat (87 + n.val)

/-- The key string of `fmt.Sprintf("%x", key)`: two lowercase hexadecimal
digits per byte, high digit first. -/
def hexKey (key : Bytes) : String :=
  String.mk ((FromBytes key).map hexDigit)

/-- `proof.ProofDB`: the Go map `kv`, as an association list with at most one
entry per key string. -/
structure ProofDB where
  kv : List (String × Bytes)

/-- `proof.NewProofDB`. -/
def NewProofDB : ProofDB := ⟨[]⟩

/-- `ProofDB.Put` (its error result is always nil). -/
def ProofDB.Put (w : ProofDB) (key value : Bytes) : ProofDB :=
  ⟨(hexKey key, value) :: w.kv.filter fun e => e.1 ≠ hexKey key⟩

/-- `ProofDB.Delete` (its error result is always nil). -/
def ProofDB.Delete (w : ProofDB) (key : Bytes) : ProofDB :=
  ⟨w.kv.filter fun e => e.1 ≠ hexKey key⟩

/-- `ProofDB.Has` (its error result is always nil). -/
def ProofDB.Has (w : ProofDB) (key : Bytes) : Bool :=
  (w.kv.lookup (hexKey key)).isSome

/-- `ProofDB.Get`; `none` is the error "not found". -/
def ProofDB.Get (w : ProofDB) (key : Bytes) : Option Bytes :=
  w.kv.lookup (hexKey key)

/-- The call `proof.Put(node.Hash(root), node.Serialize(root))` at the head of
the loop of `Trie.Prove`; `none` when hashing panics. -/
def recordNode (X : Externals) (proof : ProofDB) (root : Node) : Option ProofDB :=
  match Hash X root, Serialize X root with
  | some h, some s => some (proof.Put h s)
  | _, _ => none

/-- The loop of `Trie.Prove`.  The result is the pair `(proof, found)` of the Go
function, where a nil proof is `none`; the outer `none` is a panic. -/
def proveLoop (X : Externals) : Node → List Nibble → ProofDB → Option (Option ProofDB × Bool)
  | .empty, _, proof =>
    (recordNode X proof .empty).bind fun _ => some (none, false)
  | .leaf path value, nibbles, proof =>
    (recordNode X proof (.leaf path value)).bind fun proof =>
      let matched := PrefixMatchedLen path nibbles
      if matched ≠ path.length ∨ matched ≠ nibbles.length then some (none, false)
      else some (some proof, true)
  | .branch branches value, [], proof =>
    (recordNode X proof (.branch branches value)).bind fun proof =>
      some (some proof, value.isSome)
  | .branch branches value, b :: remaining, proof =>
    (recordNode X proof (.branch branches value)).bind fun proof =>
      proveLoop X (branches b) remaining proof
  | .ext path next, nibbles, proof =>
    (recordNode X proof (.ext path next)).bind fun proof =>
      let matched := PrefixMatchedLen path nibbles
      if matched < path.length then some (none, false)
      else proveLoop X next (nibbles.drop matched) proof

/-- `Trie.Prove`. -/
def Trie.Prove (X : Externals) (t : Trie) (key : Bytes) : Option (Option ProofDB × Bool) :=
  proveLoop X t.root (FromBytes key) NewProofDB

/-! ## Proof verification

`trie.VerifyProof` hands its arguments to go-ethereum's verifier, which is not
among the sources; the verifier below follows section 4.4 of the specification.
Its loop is driven by a step count: `none` means the count ran out. -/

/-- Modelled from the spec: the error kinds of the verifier (`ProofIncomplete`,
`MalformedProofNode`, `KeyNotProven`). -/
inductive VerifyError where
  | ProofIncomplete : VerifyError
  | MalformedProofNode : VerifyError
  | KeyNotProven : VerifyError
  deriving DecidableEq

/-- Modelled from the spec: a node decoded from its raw form by inverting
`Raw()`; the children of an extension and of a branch stay child references
(an inlined raw structure, a hash, or the empty byte string of an absent
child). -/
inductive ProofNode where
  | empty : ProofNode
  | leaf (path : List Nibble) (value : Bytes) : ProofNode
  | ext (path : List Nibble) (next : RawItem) : ProofNode
  | branch (children : List RawItem) (value : Option Bytes) : ProofNode

/-- Modelled from the spec: the inverse of `ToBytes(ToPrefixed(path, isLeaf))`;
the flag nibble gives the node kind and the parity of the path, an even path is
preceded by one zero padding nibble. -/
def decodeCompact (pb : Bytes) : Option (List Nibble × Bool) :=
  match FromBytes pb with
  | [] => none
  | flag :: rest =>
    if flag = 1 then some (rest, false)
    else if flag = 3 then some (rest, true)
    else
      match rest with
      | [] => none
      | pad :: path =>
        if pad ≠ 0 then none
        else if flag = 0 then some (path, false)
        else if flag = 2 then some (path, true)
        else none

/-- Modelled from the spec: step 2 of the verifier, decoding a raw value into a
node by inverting `Raw()`: the empty byte string is the Empty node, a
2-element structure is a leaf or an extension according to the flag of its
path, a 17-element structure is a branch whose value is absent when the last
element is the empty byte string; anything else is malformed (`none`). -/
def decodeNode : RawItem → Option ProofNode
  | .bytes [] => some .empty
  | .bytes _ => none
  | .list [.bytes pb, x] =>
    match decodeCompact pb with
    | some (path, true) =>
      match x with
      | .bytes value => some (.leaf path value)
      | .list _ => none
    | some (path, false) => some (.ext path x)
    | none => none
  | .list items =>
    if items.length = 17 then
      match items.getD 16 (.list []) with
      | .bytes value => some (.branch (items.take 16) (if value = [] then none else some value))
      | .list _ => none
    else none

/-- Modelled from the spec: the outcome of looking at one node in step 3 of the
verifier: the verification is over, or it goes on at a child reference with
the nibbles that remain. -/
inductive VerifyStep where
  | done (result : Except VerifyError Bytes) : VerifyStep
  | next (ref : RawItem) (nibbles : List Nibble) : VerifyStep

/-- Modelled from the spec: steps 3 and 4 of the verifier on one raw node, the
case analysis of `Get` against the remaining nibbles. -/
def verifyStep (raw : RawItem) (nibbles : List Nibble) : VerifyStep :=
  match decodeNode raw with
  | none => .done (.error .MalformedProofNode)
  | some .empty => .done (.error .KeyNotProven)
  | some (.leaf path value) =>
    if nibbles = path then .done (.ok value) else .done (.error .KeyNotProven)
  | some (.ext path next) =>
    if PrefixMatchedLen path nibbles < path.length then .done (.error .KeyNotProven)
    else .next next (nibbles.drop (PrefixMatchedLen path nibbles))
  | some (.branch children value) =>
    match nibbles with
    | [] =>
      match value with
      | some v => .done (.ok v)
      | none => .done (.error .KeyNotProven)
    | b :: remaining => .next (children.getD b.val (.bytes [])) remaining

/-- Modelled from the spec: steps 1 and 2 of the verifier, the store lookup of
a hash and the decoding of the entry. `Decode` is the inverse of the external
encoding. -/
def fetchNode (Decode : Bytes → Option RawItem) (store : ProofDB) (expected : Bytes) :
    Except VerifyError RawItem :=
  match store.Get expected with
  | none => .error .ProofIncomplete
  | some entry =>
    match Decode entry with
    | none => .error .MalformedProofNode
    | some raw => .ok raw

/-- Modelled from the spec: the raw node a child reference stands for: an
inlined structure is decoded directly without a store lookup, the empty byte
string is the Empty node, a hash is looked up in the store. -/
def resolveRef (Decode : Bytes → Option RawItem) (store : ProofDB) :
    RawItem → Except VerifyError RawItem
  | .list items => .ok (.list items)
  | .bytes [] => .ok (.bytes [])
  | .bytes h => fetchNode Decode store h

/-- Modelled from the spec: the loop of the verifier from a raw node on, with a
step count. -/
def verifyLoop (Decode : Bytes → Option RawItem) (store : ProofDB) :
    Nat → RawItem → List Nibble → Option (Except VerifyError Bytes)
  | 0, _, _ => none
  | fuel + 1, raw, nibbles =>
    match verifyStep raw nibbles with
    | .done result => some result
    | .next ref remaining =>
      match resolveRef Decode store ref with
      | .error e => some (.error e)
      | .ok child => verifyLoop Decode store fuel child remaining

/-- Modelled from the spec: `VerifyProof(rootHash, key, store)`, replaying the
lookup from `expected = rootHash` with only the store; `none` when the step
count `fuel` ran out. -/
def VerifyProof (Decode : Bytes → Option RawItem) (fuel : Nat) (rootHash key : Bytes)
    (proof : ProofDB) : Option (Except VerifyError Bytes) :=
  match fetchNode Decode proof rootHash with
  | .error e => some (.error e)
  | .ok raw => verifyLoop Decode proof fuel raw (FromBytes key)

/-- `trie.VerifyProof` of the sources (trie.go 264-266): it returns the pair
`(value, err)` that go-ethereum's verifier returns; a nil value is `[]`, a nil
error is `none`, and the outer `none` means that the step count ran out.
Modelled from the spec: the verifier is `VerifyProof` above (section 4.4).
Where the verifier of section 4.4 stops with `KeyNotProven` (the proof shows no
value under the key), go-ethereum's returns `nil, nil`: no value and no error;
a missing or malformed proof node is an error in both. -/
def Trie.VerifyProof (Decode : Bytes → Option RawItem) (fuel : Nat) (rootHash key : Bytes)
    (proof : ProofDB) : Option (Bytes × Option VerifyError) :=
  (MPT.VerifyProof Decode fuel rootHash key proof).map fun
    | .ok value => (value, none)
    | .error .KeyNotProven => ([], none)
    | .error e => ([], some e)

/-! ## The descent of a key and the shape of the trees built by `Put` -/

/-- The nodes at which the head of the loop of `Trie.Get` and `Trie.Prove` runs,
in the order of the descent (the nil node included when it is reached). -/
def visited : Node → List Nibble → List Node
  | .empty, _ => [.empty]
  | .leaf p v, _ => [.leaf p v]
  | .branch cs val, [] => [.branch cs val]
  | .branch cs val, b :: r => .branch cs val :: visited (cs b) r
  | .ext p n, ns =>
    if PrefixMatchedLen p ns < p.length then [.ext p n]
    else .ext p n :: visited n (ns.drop (PrefixMatchedLen p ns))

/-- The loop of `Trie.Prove` leaves by one of its three `return nil, false`: the
nil node is reached, a leaf does not match, or an extension does not match. -/
def stopsShort : Node → List Nibble → Bool
  | .empty, _ => true
  | .leaf p _, ns =>
    decide (PrefixMatchedLen p ns ≠ p.length ∨ PrefixMatchedLen p ns ≠ ns.length)
  | .branch _ _, [] => false
  | .branch cs _, b :: r => stopsShort (cs b) r
  | .ext p n, ns =>
    if PrefixMatchedLen p ns < p.length then true
    else stopsShort n (ns.drop (PrefixMatchedLen p ns))

/-- The descent of `Trie.Get` and `Trie.Put` for these nibbles ends at a branch
with all nibbles consumed. -/
def endsAtBranch : Node → List Nibble → Bool
  | .empty, _ => false
  | .leaf _ _, _ => false
  | .branch _ _, [] => true
  | .branch cs _, b :: r => endsAtBranch (cs b) r
  | .ext p n, ns =>
    if PrefixMatchedLen p ns < p.length then false
    else endsAtBranch n (ns.drop (PrefixMatchedLen p ns))

/-- The store has the entry `Hash(n) -> Serialize(n)`. -/
def HasEntry (X : Externals) (db : ProofDB) (n : Node) : Prop :=
  ∃ d s, Hash X n = some d ∧ Serialize X n = some s ∧ db.Get d = some s

/-- The node is a branch. -/
def IsBranch : Node → Bool
  | .branch _ _ => true
  | _ => false

/-- At least two of the 17 positions of a branch (16 slots and the value) are
occupied. -/
def TwoOccupied (cs : Nibble → Node) (val : Option Bytes) : Prop :=
  (val.isSome = true ∧ ∃ i, cs i ≠ .empty) ∨ ∃ i j, i ≠ j ∧ cs i ≠ .empty ∧ cs j ≠ .empty

/-- The shape invariant of the trees built by `Put`: an extension has a
non-empty path and a branch below it, a branch has at least two occupied
positions, and so on in every subtree. -/
def WF : Node → Prop
  | .empty => True
  | .leaf _ _ => True
  | .ext p n => p ≠ [] ∧ IsBranch n = true ∧ WF n
  | .branch cs val => (∀ i, WF (cs i)) ∧ TwoOccupied cs val

/-- A node of the tree under a root: the root itself, a node under the child of
an extension, or a node under one of the 16 slots of a branch. -/
inductive Reachable : Node → Node → Prop where
  | root (t : Node) : Reachable t t
  | next (p : List Nibble) (n x : Node) : Reachable n x → Reachable (.ext p n) x
  | slot (cs : Nibble → Node) (val : Option Bytes) (i : Nibble) (x : Node) :
      Reachable (cs i) x → Reachable (.branch cs val) x

/-- The number of child slots of a branch that hold a node. -/
def occupiedSlots (cs : Nibble → Node) : Nat :=
  (Finset.univ.filter fun i => IsEmptyNode (cs i) = false).card

/-- The number of occupied positions of a branch among its 16 child slots and
its value. -/
def occupied (cs : Nibble → Node) (val : Option Bytes) : Nat :=
  occupiedSlots cs + if val.isSome then 1 else 0

/-- What the theorems on hashes assume of the external primitives: the hash
function and the encoding are injective, a digest is never the empty string,
and `EmptyNodeHash` is the digest of the encoding of the empty byte string. -/
structure Externals.Faithful (X : Externals) : Prop where
  keccak_injective : Function.Injective X.Keccak256
  encode_injective : Function.Injective X.EncodeToBytes
  keccak_ne_nil : ∀ x, X.Keccak256 x ≠ []
  empty_hash : X.Keccak256 (X.EncodeToBytes (.bytes EmptyNodeRaw)) = EmptyNodeHash

/-! ## Proof devices -/

/-- Proof device: an extension over `b` with path `c`, or `b` itself when `c` is empty. -/
def wrapExt (c : List Nibble) (b : Node) : Node :=
  if c = [] then b else .ext c b

/-- Proof device: the empty slot table of a new branch. -/
abbrev noBranches : Nibble → Node := fun _ => .empty

/-- Proof device: the node hung below the divergence nibble when an extension
with remainder `pr` and child `next` is split. -/
def extRest (pr : List Nibble) (next : Node) : Node :=
  if pr = [] then next else .ext pr next


/-- Proof device: the node left by the loop of `Trie.Put`; the loop never
panics (`putLoop_eq_some`), so this is the node it returns. -/
def putNode (t : Node) (ns : List Nibble) (v : Bytes) : Node :=
  (putLoop t ns v).getD .empty

/-- Proof device: the root left by a sequence of `Put` loops on nibble keys,
started at the empty node. -/
def putsNode (l : List (List Nibble × Bytes)) : Node :=
  l.foldl (fun t kv => putNode t kv.1 kv.2) .empty

/-- Proof device: the calls of a sequence of `Put`s with their keys turned
into nibbles. -/
def nibbleOps (ops : List (Bytes × Bytes)) : List (List Nibble × Bytes) :=
  ops.map fun kv => (FromBytes kv.1, kv.2)

/-- Proof device: what the last `Put` on key `ks` in the sequence stored, as the
pair `(value, found)`. -/
def lastVal (l : List (List Nibble × Bytes)) (ks : List Nibble) : Bytes × Bool :=
  l.foldl (fun acc kv => if ks = kv.1 then (kv.2, true) else acc) ([], false)

/-! ## A small instance of the external primitives

The theorems below that assume properties of the hash function and of the
encoding are applied to this instance, which has those properties. -/

mutual
/-- A self-delimiting encoding: a byte string is `0`, its length in unary, then
its bytes; a list is `1` followed by its items, each behind a `1`, and closed
by `0`. -/
def toyEncode : RawItem → Bytes
  | .bytes b => 0 :: (List.replicate b.length 1 ++ 0 :: b)
  | .list items => 1 :: toyEncodeList items
/-- The items of a list, each behind a `1`, closed by `0`. -/
def toyEncodeList : List RawItem → Bytes
  | [] => [0]
  | x :: xs => 1 :: (toyEncode x ++ toyEncodeList xs)
end

/-- An injective hash function with non-empty digests that gives the encoding
of the empty byte string the digest `EmptyNodeHash`. -/
def toyKeccak256 (x : Bytes) : Bytes :=
  if x = toyEncode (.bytes []) then EmptyNodeHash else 0 :: x

/-- The instance made of `toyKeccak256` and `toyEncode`. -/
def toyExternals : Externals := ⟨toyKeccak256, toyEncode⟩

mutual
/-- The decoder of `toyEncode`, reading one value from the front of the input;
the count bounds the depth of the reading. -/
def toyDecodeItem : Nat → Bytes → Option (RawItem × Bytes)
  | 0, _ => none
  | _ + 1, [] => none
  | fuel + 1, tag :: rest =>
    if tag = 0 then
      let n := (rest.takeWhile fun x => x = 1).length
      match rest.drop n with
      | [] => none
      | z :: body =>
        if z = 0 ∧ n ≤ body.length then some (.bytes (body.take n), body.drop n) else none
    else if tag = 1 then
      (toyDecodeList fuel rest).map fun p => (.list p.1, p.2)
    else none
/-- The decoder of `toyEncodeList`. -/
def toyDecodeList : Nat → Bytes → Option (List RawItem × Bytes)
  | 0, _ => none
  | _ + 1, [] => none
  | fuel + 1, tag :: rest =>
    if tag = 0 then some ([], rest)
    else if tag = 1 then
      match toyDecodeItem fuel rest with
      | none => none
      | some (x, r) => (toyDecodeList fuel r).map fun p => (x :: p.1, p.2)
    else none
end

/-- The inverse of `toyEncode`. -/
def toyDecode (bs : Bytes) : Option RawItem :=
  match toyDecodeItem (bs.length + 1) bs with
  | some (r, []) => some r
  | _ => none

/-! ## Lemmas on the nibble codec and on the shape of a split -/

theorem pml_le_left (p ns : List Nibble) : PrefixMatchedLen p ns ≤ p.length := by
  induction p generalizing ns with
  | nil => simp [PrefixMatchedLen]
  | cons a as ih =>
    cases ns with
    | nil => simp [PrefixMatchedLen]
    | cons b bs =>
      simp only [PrefixMatchedLen]
      split
      · have := ih bs; simp; omega
      · simp

theorem pml_le_right (p ns : List Nibble) : PrefixMatchedLen p ns ≤ ns.length := by
  induction p generalizing ns with
  | nil => simp [PrefixMatchedLen]
  | cons a as ih =>
    cases ns with
    | nil => simp [PrefixMatchedLen]
    | cons b bs =>
      simp only [PrefixMatchedLen]
      split
      · have := ih bs; simp; omega
      · simp

theorem pml_append (c p ns : List Nibble) :
    PrefixMatchedLen (c ++ p) (c ++ ns) = c.length + PrefixMatchedLen p ns := by
  induction c with
  | nil => simp
  | cons a as ih => simp [PrefixMatchedLen, ih]; omega

theorem pml_decomp (p ns : List Nibble) :
    ∃ c p' n', p = c ++ p' ∧ ns = c ++ n' ∧ PrefixMatchedLen p' n' = 0 := by
  induction p generalizing ns with
  | nil => exact ⟨[], [], ns, rfl, rfl, by simp [PrefixMatchedLen]⟩
  | cons a as ih =>
    cases ns with
    | nil => exact ⟨[], a :: as, [], rfl, rfl, by simp [PrefixMatchedLen]⟩
    | cons b bs =>
      by_cases hab : a = b
      · obtain ⟨c, p', n', h1, h2, h3⟩ := ih bs
        exact ⟨a :: c, p', n', by simp [h1], by simp [hab, h2], h3⟩
      · exact ⟨[], a :: as, b :: bs, rfl, rfl, by simp [PrefixMatchedLen, hab]⟩

theorem drop_succ_append_cons (c : List Nibble) (a : Nibble) (r : List Nibble) :
    (c ++ a :: r).drop (c.length + 1) = r := by
  induction c with
  | nil => simp
  | cons x xs ih => simp

theorem getElem_append_cons (c : List Nibble) (a : Nibble) (r : List Nibble)
    (h : c.length < (c ++ a :: r).length) : (c ++ a :: r)[c.length] = a := by
  induction c with
  | nil => simp
  | cons x xs ih => simpa using ih _

theorem putAtLeaf_same (c : List Nibble) (o v : Bytes) :
    putAtLeaf c o c v = .leaf c v := by
  have h := pml_append c [] []
  simp [PrefixMatchedLen] at h
  simp [putAtLeaf, h, NewLeafNodeFromNibbles]

theorem putAtLeaf_longer (c : List Nibble) (b : Nibble) (nr : List Nibble) (o v : Bytes) :
    putAtLeaf c o (c ++ b :: nr) v
      = wrapExt c (.branch (Function.update noBranches b (.leaf nr v)) (some o)) := by
  have h := pml_append c [] (b :: nr)
  simp only [PrefixMatchedLen, List.append_nil, Nat.add_zero] at h
  simp only [putAtLeaf, h]
  simp [NewBranchNode, SetValue, SetBranch, wrapExt, NewLeafNodeFromNibbles, NewExtensionNode,
    drop_succ_append_cons, getElem_append_cons]
  cases c <;> simp

theorem putAtLeaf_shorter (c : List Nibble) (a : Nibble) (pr : List Nibble) (o v : Bytes) :
    putAtLeaf (c ++ a :: pr) o c v
      = wrapExt c (.branch (Function.update noBranches a (.leaf pr o)) (some v)) := by
  have h := pml_append c (a :: pr) []
  simp only [PrefixMatchedLen, List.append_nil, Nat.add_zero] at h
  simp only [putAtLeaf, h]
  simp [NewBranchNode, SetValue, SetBranch, wrapExt, NewLeafNodeFromNibbles, NewExtensionNode,
    drop_succ_append_cons, getElem_append_cons]
  cases c <;> simp

theorem putAtLeaf_fork (c : List Nibble) (a b : Nibble) (pr nr : List Nibble) (o v : Bytes)
    (hab : a ≠ b) :
    putAtLeaf (c ++ a :: pr) o (c ++ b :: nr) v
      = wrapExt c (.branch (Function.update (Function.update noBranches a (.leaf pr o)) b
          (.leaf nr v)) none) := by
  have h := pml_append c (a :: pr) (b :: nr)
  simp only [PrefixMatchedLen, hab, if_false, Nat.add_zero] at h
  simp only [putAtLeaf, h]
  simp [NewBranchNode, SetValue, SetBranch, wrapExt, NewLeafNodeFromNibbles, NewExtensionNode,
    drop_succ_append_cons, getElem_append_cons]
  cases c <;> simp

theorem putSplitExt_end (c : List Nibble) (a : Nibble) (pr : List Nibble) (next : Node)
    (v : Bytes) (h : c.length < (c ++ a :: pr).length) :
    putSplitExt (c ++ a :: pr) next c v c.length h
      = some (wrapExt c (.branch (Function.update noBranches a (extRest pr next)) (some v))) := by
  simp only [putSplitExt]
  simp [NewBranchNode, SetValue, SetBranch, wrapExt, NewLeafNodeFromNibbles, NewExtensionNode,
    drop_succ_append_cons, getElem_append_cons, extRest]
  cases c <;> cases pr <;> simp [SetValue, SetBranch]

theorem putSplitExt_fork (c : List Nibble) (a b : Nibble) (pr nr : List Nibble) (next : Node)
    (v : Bytes) (h : c.length < (c ++ a :: pr).length) :
    putSplitExt (c ++ a :: pr) next (c ++ b :: nr) v c.length h
      = some (wrapExt c (.branch (Function.update (Function.update noBranches a (extRest pr next))
          b (.leaf nr v)) none)) := by
  simp only [putSplitExt]
  simp [NewBranchNode, SetValue, SetBranch, wrapExt, NewLeafNodeFromNibbles, NewExtensionNode,
    drop_succ_append_cons, getElem_append_cons, extRest]
  cases c <;> cases pr <;> simp [SetValue, SetBranch]

/-! ## The two ways a key meets the path of a leaf or of an extension -/

theorem pml_zero_cases (p n : List Nibble) (h : PrefixMatchedLen p n = 0) :
    p = [] ∨ n = [] ∨ ∃ a pr b nr, p = a :: pr ∧ n = b :: nr ∧ a ≠ b := by
  cases p with
  | nil => exact Or.inl rfl
  | cons a pr =>
    cases n with
    | nil => exact Or.inr (Or.inl rfl)
    | cons b nr =>
      refine Or.inr (Or.inr ⟨a, pr, b, nr, rfl, rfl, ?_⟩)
      intro hab
      simp [PrefixMatchedLen, hab] at h

theorem leaf_cases (p ns : List Nibble) :
    ns = p ∨ (∃ b nr, ns = p ++ b :: nr) ∨ (∃ a pr, p = ns ++ a :: pr) ∨
      ∃ c a pr b nr, p = c ++ a :: pr ∧ ns = c ++ b :: nr ∧ a ≠ b := by
  obtain ⟨c, p', n', rfl, rfl, h⟩ := pml_decomp p ns
  rcases pml_zero_cases p' n' h with rfl | rfl | ⟨a, pr, b, nr, rfl, rfl, hab⟩
  · cases n' with
    | nil => exact Or.inl rfl
    | cons b nr => exact Or.inr (Or.inl ⟨b, nr, by simp⟩)
  · cases p' with
    | nil => exact Or.inl rfl
    | cons a pr => exact Or.inr (Or.inr (Or.inl ⟨a, pr, by simp⟩))
  · exact Or.inr (Or.inr (Or.inr ⟨c, a, pr, b, nr, rfl, rfl, hab⟩))

theorem ext_cases (p ns : List Nibble) :
    (∃ r, ns = p ++ r) ∨ (∃ a pr, p = ns ++ a :: pr) ∨
      ∃ c a pr b nr, p = c ++ a :: pr ∧ ns = c ++ b :: nr ∧ a ≠ b := by
  rcases leaf_cases p ns with rfl | ⟨b, nr, rfl⟩ | h | h
  · exact Or.inl ⟨[], by simp⟩
  · exact Or.inl ⟨b :: nr, rfl⟩
  · exact Or.inr (Or.inl h)
  · exact Or.inr (Or.inr h)

theorem pml_self_append (c r : List Nibble) : PrefixMatchedLen c (c ++ r) = c.length := by
  have h := pml_append c [] r
  simpa [PrefixMatchedLen] using h

theorem pml_append_self (c r : List Nibble) : PrefixMatchedLen (c ++ r) c = c.length := by
  have h := pml_append c r []
  cases r <;> simpa [PrefixMatchedLen] using h

theorem pml_fork (c : List Nibble) (a b : Nibble) (pr nr : List Nibble) (hab : a ≠ b) :
    PrefixMatchedLen (c ++ a :: pr) (c ++ b :: nr) = c.length := by
  have h := pml_append c (a :: pr) (b :: nr)
  simpa [PrefixMatchedLen, hab] using h

/-! ## The loop of `Put` never panics; its result, case by case -/

theorem putLoop_ext_full (c : List Nibble) (n : Node) (r : List Nibble) (v : Bytes) :
    putLoop (.ext c n) (c ++ r) v = (putLoop n r v).map fun child => .ext c child := by
  simp [putLoop, pml_self_append]

theorem putLoop_ext_end (c : List Nibble) (a : Nibble) (pr : List Nibble) (n : Node) (v : Bytes) :
    putLoop (.ext (c ++ a :: pr) n) c v
      = some (wrapExt c (.branch (Function.update noBranches a (extRest pr n)) (some v))) := by
  have key : ∀ m (hm : m = c.length) (h : m < (c ++ a :: pr).length),
      putSplitExt (c ++ a :: pr) n c v m h
        = some (wrapExt c (.branch (Function.update noBranches a (extRest pr n)) (some v))) := by
    intro m hm
    subst hm
    intro h
    exact putSplitExt_end c a pr n v h
  have hm := pml_append_self c (a :: pr)
  simp only [putLoop]
  split
  · exact key _ hm _
  · rename_i h
    exact absurd (by simp [hm]) h

theorem putLoop_ext_fork (c : List Nibble) (a b : Nibble) (pr nr : List Nibble) (n : Node)
    (v : Bytes) (hab : a ≠ b) :
    putLoop (.ext (c ++ a :: pr) n) (c ++ b :: nr) v
      = some (wrapExt c (.branch (Function.update (Function.update noBranches a (extRest pr n))
          b (.leaf nr v)) none)) := by
  have key : ∀ m (hm : m = c.length) (h : m < (c ++ a :: pr).length),
      putSplitExt (c ++ a :: pr) n (c ++ b :: nr) v m h
        = some (wrapExt c (.branch (Function.update (Function.update noBranches a (extRest pr n))
          b (.leaf nr v)) none)) := by
    intro m hm
    subst hm
    intro h
    exact putSplitExt_fork c a b pr nr n v h
  have hm := pml_fork c a b pr nr hab
  simp only [putLoop]
  split
  · exact key _ hm _
  · rename_i h
    exact absurd (by simp [hm]) h

theorem putLoop_eq_some (t : Node) (ns : List Nibble) (v : Bytes) :
    putLoop t ns v = some (putNode t ns v) := by
  induction t generalizing ns with
  | empty => simp [putNode, putLoop]
  | leaf p o => simp [putNode, putLoop]
  | ext p n ih =>
    rcases ext_cases p ns with ⟨r, rfl⟩ | ⟨a, pr, rfl⟩ | ⟨c, a, pr, b, nr, rfl, rfl, hab⟩
    · unfold putNode
      rw [putLoop_ext_full, ih r]
      rfl
    · simp [putNode, putLoop_ext_end]
    · simp [putNode, putLoop_ext_fork _ _ _ _ _ _ _ hab]
  | branch cs val ih =>
    cases ns with
    | nil => simp [putNode, putLoop]
    | cons b r =>
      unfold putNode
      simp only [putLoop]
      rw [ih b r]
      rfl

theorem putNode_empty (ns : List Nibble) (v : Bytes) : putNode .empty ns v = .leaf ns v := by
  simp [putNode, putLoop, NewLeafNodeFromNibbles]

theorem putNode_leaf (p : List Nibble) (o : Bytes) (ns : List Nibble) (v : Bytes) :
    putNode (.leaf p o) ns v = putAtLeaf p o ns v := by
  simp [putNode, putLoop]

theorem putNode_branch_nil (cs : Nibble → Node) (val : Option Bytes) (v : Bytes) :
    putNode (.branch cs val) [] v = .branch cs (some v) := by
  simp [putNode, putLoop]

theorem putNode_branch_cons (cs : Nibble → Node) (val : Option Bytes) (b : Nibble)
    (r : List Nibble) (v : Bytes) :
    putNode (.branch cs val) (b :: r) v
      = .branch (Function.update cs b (putNode (cs b) r v)) val := by
  unfold putNode
  simp only [putLoop]
  rw [putLoop_eq_some (cs b) r v]
  rfl

theorem putNode_ext_full (c : List Nibble) (n : Node) (r : List Nibble) (v : Bytes) :
    putNode (.ext c n) (c ++ r) v = .ext c (putNode n r v) := by
  unfold putNode
  rw [putLoop_ext_full, putLoop_eq_some n r v]
  rfl

theorem putNode_ext_end (c : List Nibble) (a : Nibble) (pr : List Nibble) (n : Node) (v : Bytes) :
    putNode (.ext (c ++ a :: pr) n) c v
      = wrapExt c (.branch (Function.update noBranches a (extRest pr n)) (some v)) := by
  simp [putNode, putLoop_ext_end]

theorem putNode_ext_fork (c : List Nibble) (a b : Nibble) (pr nr : List Nibble) (n : Node)
    (v : Bytes) (hab : a ≠ b) :
    putNode (.ext (c ++ a :: pr) n) (c ++ b :: nr) v
      = wrapExt c (.branch (Function.update (Function.update noBranches a (extRest pr n))
          b (.leaf nr v)) none) := by
  simp [putNode, putLoop_ext_fork _ _ _ _ _ _ _ hab]

/-! ## The loop of `Get`, case by case -/

/-- A lookup that starts at the nil node fails. -/
theorem getLoop_empty (ns : List Nibble) : getLoop .empty ns = ([], false) := by
  simp [getLoop]

theorem pml_eq_both_iff (p ns : List Nibble) :
    (PrefixMatchedLen p ns = p.length ∧ PrefixMatchedLen p ns = ns.length) ↔ ns = p := by
  constructor
  · rintro ⟨h1, h2⟩
    obtain ⟨c, p', n', rfl, rfl, h⟩ := pml_decomp p ns
    rw [pml_append, h] at h1 h2
    simp at h1 h2
    simp [h1, h2]
  · rintro rfl
    have := pml_self_append ns []
    simp at this
    simp [this]

theorem getLoop_leaf (p : List Nibble) (v : Bytes) (ns : List Nibble) :
    getLoop (.leaf p v) ns = if ns = p then (v, true) else ([], false) := by
  have h := pml_eq_both_iff p ns
  simp only [getLoop]
  by_cases hns : ns = p
  · have h' := h.mpr hns
    simp [hns, h'.1, h'.2]
    subst hns
    simp [h'.1]
  · have h' : ¬ (PrefixMatchedLen p ns = p.length ∧ PrefixMatchedLen p ns = ns.length) :=
      fun hh => hns (h.mp hh)
    simp only [hns, if_false]
    rw [if_pos]
    by_contra hc
    exact h' ⟨by_contra fun h1 => hc (Or.inl h1), by_contra fun h2 => hc (Or.inr h2)⟩

theorem getLoop_branch_nil (cs : Nibble → Node) (val : Option Bytes) :
    getLoop (.branch cs val) [] = (val.getD [], val.isSome) := by
  simp [getLoop]

theorem getLoop_branch_cons (cs : Nibble → Node) (val : Option Bytes) (b : Nibble)
    (r : List Nibble) : getLoop (.branch cs val) (b :: r) = getLoop (cs b) r := by
  simp [getLoop]

theorem getLoop_ext_append (c : List Nibble) (n : Node) (r : List Nibble) :
    getLoop (.ext c n) (c ++ r) = getLoop n r := by
  simp [getLoop, pml_self_append]

theorem pml_lt_of_not_append (c ns : List Nibble) (h : ¬ ∃ r, ns = c ++ r) :
    PrefixMatchedLen c ns < c.length := by
  rcases ext_cases c ns with ⟨r, rfl⟩ | ⟨a, pr, rfl⟩ | ⟨d, a, pr, b, nr, rfl, rfl, hab⟩
  · exact absurd ⟨r, rfl⟩ h
  · rw [pml_append_self]; simp
  · rw [pml_fork _ _ _ _ _ hab]; simp

theorem getLoop_ext_miss (c : List Nibble) (n : Node) (ns : List Nibble)
    (h : ¬ ∃ r, ns = c ++ r) : getLoop (.ext c n) ns = ([], false) := by
  simp [getLoop, pml_lt_of_not_append c ns h]

theorem getLoop_wrapExt_append (c : List Nibble) (n : Node) (r : List Nibble) :
    getLoop (wrapExt c n) (c ++ r) = getLoop n r := by
  unfold wrapExt
  split
  · rename_i h; subst h; rfl
  · exact getLoop_ext_append c n r

theorem getLoop_wrapExt_miss (c : List Nibble) (n : Node) (ns : List Nibble)
    (h : ¬ ∃ r, ns = c ++ r) : getLoop (wrapExt c n) ns = ([], false) := by
  unfold wrapExt
  split
  · rename_i hc; subst hc; exact absurd ⟨ns, rfl⟩ h
  · exact getLoop_ext_miss c n ns h

theorem getLoop_extRest (pr : List Nibble) (n : Node) (ns : List Nibble) :
    getLoop (extRest pr n) ns = getLoop (.ext pr n) ns := by
  unfold extRest
  split
  · rename_i h; subst h; simp [getLoop, PrefixMatchedLen]
  · rfl

/-! ## `Get` after `Put` -/

theorem getLoop_split_value (c : List Nibble) (a : Nibble) (x : Node) (w : Bytes)
    (ns : List Nibble) [Decidable (∃ r, ns = c ++ a :: r)] :
    getLoop (wrapExt c (.branch (Function.update noBranches a x) (some w))) ns
      = if ns = c then (w, true)
        else if ∃ r, ns = c ++ a :: r then getLoop x (ns.drop (c.length + 1))
        else ([], false) := by
  by_cases hp : ∃ r, ns = c ++ r
  · obtain ⟨r, rfl⟩ := hp
    rw [getLoop_wrapExt_append]
    cases r with
    | nil => simp [getLoop_branch_nil]
    | cons y rr =>
      rw [getLoop_branch_cons]
      by_cases hy : y = a
      · subst hy
        simp [drop_succ_append_cons]
      · simp [Function.update_noteq hy, getLoop_empty, hy]
  · rw [getLoop_wrapExt_miss _ _ _ hp]
    have h1 : ns ≠ c := fun h => hp ⟨[], by simp [h]⟩
    have h2 : ¬ ∃ r, ns = c ++ a :: r := fun ⟨r, h⟩ => hp ⟨a :: r, h⟩
    simp [h1, h2]

theorem getLoop_split_fork (c : List Nibble) (a b : Nibble) (x y : Node) (hab : a ≠ b)
    (ns : List Nibble) [Decidable (∃ r, ns = c ++ a :: r)] [Decidable (∃ r, ns = c ++ b :: r)] :
    getLoop (wrapExt c (.branch (Function.update (Function.update noBranches a x) b y) none)) ns
      = if ∃ r, ns = c ++ a :: r then getLoop x (ns.drop (c.length + 1))
        else if ∃ r, ns = c ++ b :: r then getLoop y (ns.drop (c.length + 1))
        else ([], false) := by
  by_cases hp : ∃ r, ns = c ++ r
  · obtain ⟨r, rfl⟩ := hp
    rw [getLoop_wrapExt_append]
    cases r with
    | nil => simp [getLoop_branch_nil]
    | cons z rr =>
      rw [getLoop_branch_cons]
      by_cases hzb : z = b
      · subst hzb
        simp [drop_succ_append_cons, Ne.symm hab]
      · by_cases hza : z = a
        · subst hza
          simp [Function.update_noteq hzb, drop_succ_append_cons]
        · simp [Function.update_noteq hzb, Function.update_noteq hza, getLoop_empty, hza, hzb]
  · rw [getLoop_wrapExt_miss _ _ _ hp]
    have h1 : ¬ ∃ r, ns = c ++ a :: r := fun ⟨r, h⟩ => hp ⟨a :: r, h⟩
    have h2 : ¬ ∃ r, ns = c ++ b :: r := fun ⟨r, h⟩ => hp ⟨b :: r, h⟩
    simp [h1, h2]

theorem getLoop_leaf_drop (c : List Nibble) (a : Nibble) (pr : List Nibble) (o : Bytes)
    (ns : List Nibble) (h : ∃ r, ns = c ++ a :: r) :
    getLoop (.leaf pr o) (ns.drop (c.length + 1)) = getLoop (.leaf (c ++ a :: pr) o) ns := by
  obtain ⟨r, rfl⟩ := h
  simp [getLoop_leaf, drop_succ_append_cons]

theorem getLoop_ext_drop (c : List Nibble) (a : Nibble) (pr : List Nibble) (n : Node)
    (ns : List Nibble) (h : ∃ r, ns = c ++ a :: r) :
    getLoop (extRest pr n) (ns.drop (c.length + 1)) = getLoop (.ext (c ++ a :: pr) n) ns := by
  obtain ⟨r, rfl⟩ := h
  rw [drop_succ_append_cons, getLoop_extRest]
  by_cases hp : ∃ s, r = pr ++ s
  · obtain ⟨s, rfl⟩ := hp
    rw [getLoop_ext_append]
    have : c ++ a :: (pr ++ s) = (c ++ a :: pr) ++ s := by simp
    rw [this, getLoop_ext_append]
  · rw [getLoop_ext_miss _ _ _ hp, getLoop_ext_miss]
    rintro ⟨s, hs⟩
    exact hp ⟨s, by simpa using hs⟩

/-- Looking up `ks` after the loop of `Put` stored `v` under `ns`: `v` when
`ks = ns`, and what the lookup gave before otherwise. -/
theorem getLoop_putNode (t : Node) (ns : List Nibble) (v : Bytes) (ks : List Nibble) :
    getLoop (putNode t ns v) ks = if ks = ns then (v, true) else getLoop t ks := by
  classical
  induction t generalizing ns ks with
  | empty => rw [putNode_empty, getLoop_leaf, getLoop_empty]
  | leaf p o =>
    rw [putNode_leaf]
    rcases leaf_cases p ns with rfl | ⟨b, nr, rfl⟩ | ⟨a, pr, rfl⟩ | ⟨c, a, pr, b, nr, rfl, rfl, hab⟩
    · rw [putAtLeaf_same, getLoop_leaf, getLoop_leaf]
      split <;> simp
    · rw [putAtLeaf_longer, getLoop_split_value]
      by_cases h1 : ks = p
      · subst h1; simp [getLoop_leaf]
      · by_cases h2 : ∃ r, ks = p ++ b :: r
        · obtain ⟨r, rfl⟩ := h2
          simp [getLoop_leaf, drop_succ_append_cons]
        · have h3 : ks ≠ p ++ b :: nr := fun h => h2 ⟨nr, h⟩
          simp [h1, h2, h3, getLoop_leaf]
    · rw [putAtLeaf_shorter, getLoop_split_value]
      by_cases h1 : ks = ns
      · subst h1; simp
      · by_cases h2 : ∃ r, ks = ns ++ a :: r
        · rw [if_neg h1, if_pos h2, if_neg h1]
          exact getLoop_leaf_drop ns a pr o ks h2
        · have h3 : ks ≠ ns ++ a :: pr := fun h => h2 ⟨pr, h⟩
          simp [h1, h2, h3, getLoop_leaf]
    · rw [putAtLeaf_fork _ _ _ _ _ _ _ hab, getLoop_split_fork _ _ _ _ _ hab]
      by_cases h2 : ∃ r, ks = c ++ a :: r
      · have h3 : ks ≠ c ++ b :: nr := by
          rintro rfl
          obtain ⟨r, hr⟩ := h2
          simp at hr
          exact hab hr.1.symm
        rw [if_pos h2, if_neg h3]
        exact getLoop_leaf_drop c a pr o ks h2
      · by_cases h4 : ∃ r, ks = c ++ b :: r
        · obtain ⟨r, rfl⟩ := h4
          have h5 : c ++ b :: r ≠ c ++ a :: pr := by simp [Ne.symm hab]
          simp [getLoop_leaf, drop_succ_append_cons, Ne.symm hab, h5]
        · have h3 : ks ≠ c ++ b :: nr := fun h => h4 ⟨nr, h⟩
          have h5 : ks ≠ c ++ a :: pr := fun h => h2 ⟨pr, h⟩
          simp [h2, h4, h3, h5, getLoop_leaf]
  | ext p n ih =>
    rcases ext_cases p ns with ⟨r, rfl⟩ | ⟨a, pr, rfl⟩ | ⟨c, a, pr, b, nr, rfl, rfl, hab⟩
    · rw [putNode_ext_full]
      by_cases hp : ∃ s, ks = p ++ s
      · obtain ⟨s, rfl⟩ := hp
        rw [getLoop_ext_append, getLoop_ext_append, ih]
        simp
      · have h3 : ks ≠ p ++ r := fun h => hp ⟨r, h⟩
        rw [getLoop_ext_miss _ _ _ hp, getLoop_ext_miss _ _ _ hp, if_neg h3]
    · rw [putNode_ext_end, getLoop_split_value]
      by_cases h1 : ks = ns
      · simp [h1]
      · rw [if_neg h1, if_neg h1]
        by_cases h2 : ∃ r, ks = ns ++ a :: r
        · rw [if_pos h2]
          exact getLoop_ext_drop ns a pr n ks h2
        · rw [if_neg h2, getLoop_ext_miss]
          rintro ⟨s, hs⟩
          exact h2 ⟨pr ++ s, by simpa using hs⟩
    · rw [putNode_ext_fork _ _ _ _ _ _ _ hab, getLoop_split_fork _ _ _ _ _ hab]
      by_cases h2 : ∃ r, ks = c ++ a :: r
      · have h3 : ks ≠ c ++ b :: nr := by
          rintro rfl
          obtain ⟨r, hr⟩ := h2
          simp at hr
          exact hab hr.1.symm
        rw [if_pos h2, if_neg h3]
        exact getLoop_ext_drop c a pr n ks h2
      · rw [if_neg h2]
        have h6 : getLoop (.ext (c ++ a :: pr) n) ks = ([], false) := by
          apply getLoop_ext_miss
          rintro ⟨s, hs⟩
          exact h2 ⟨pr ++ s, by simpa using hs⟩
        rw [h6]
        by_cases h4 : ∃ r, ks = c ++ b :: r
        · obtain ⟨r, rfl⟩ := h4
          simp [getLoop_leaf, drop_succ_append_cons]
        · have h3 : ks ≠ c ++ b :: nr := fun h => h4 ⟨nr, h⟩
          simp [h4, h3]
  | branch cs val ih =>
    cases ns with
    | nil =>
      rw [putNode_branch_nil]
      cases ks with
      | nil => simp [getLoop_branch_nil]
      | cons k kr => simp [getLoop_branch_cons]
    | cons b r =>
      rw [putNode_branch_cons]
      cases ks with
      | nil => simp [getLoop_branch_nil]
      | cons k kr =>
        rw [getLoop_branch_cons, getLoop_branch_cons]
        by_cases hk : k = b
        · subst hk
          simp [ih]
        · simp [Function.update_noteq hk, hk]

/-! ## Sequences of `Put` calls -/

theorem FromBytes_injective : Function.Injective FromBytes := by
  intro x
  induction x with
  | nil =>
    intro y h
    cases y with
    | nil => rfl
    | cons b bs => simp [FromBytes, FromByte] at h
  | cons a as ih =>
    intro y h
    cases y with
    | nil => simp [FromBytes, FromByte] at h
    | cons b bs =>
      simp only [FromBytes, FromByte, List.cons_append, List.nil_append, List.cons.injEq,
        Fin.mk.injEq] at h
      obtain ⟨h1, h2, h3⟩ := h
      have hab : a = b := by
        apply Fin.ext
        omega
      rw [hab, ih h3]

theorem Put_eq (t : Trie) (k v : Bytes) :
    t.Put k v = some ⟨putNode t.root (FromBytes k) v⟩ := by
  simp [Trie.Put, putLoop_eq_some]

theorem foldlM_put (ops : List (Bytes × Bytes)) (t : Trie) :
    ops.foldlM (fun t kv => t.Put kv.1 kv.2) t
      = some ⟨(nibbleOps ops).foldl (fun t kv => putNode t kv.1 kv.2) t.root⟩ := by
  induction ops generalizing t with
  | nil => simp [nibbleOps]
  | cons kv rest ih =>
    rw [List.foldlM_cons, Put_eq, Option.bind_eq_bind, Option.some_bind, ih]
    rfl

theorem fromPuts_eq (ops : List (Bytes × Bytes)) :
    fromPuts ops = some ⟨putsNode (nibbleOps ops)⟩ :=
  foldlM_put ops NewTrie

theorem foldl_getLoop (l : List (List Nibble × Bytes)) (t : Node) (ks : List Nibble) :
    getLoop (l.foldl (fun t kv => putNode t kv.1 kv.2) t) ks
      = l.foldl (fun acc kv => if ks = kv.1 then (kv.2, true) else acc) (getLoop t ks) := by
  induction l generalizing t with
  | nil => rfl
  | cons kv rest ih =>
    simp only [List.foldl_cons]
    rw [ih, getLoop_putNode]

theorem getLoop_putsNode (l : List (List Nibble × Bytes)) (ks : List Nibble) :
    getLoop (putsNode l) ks = lastVal l ks := by
  unfold putsNode lastVal
  rw [foldl_getLoop, getLoop_empty]

theorem foldl_lastVal_absent (l : List (List Nibble × Bytes)) (ks : List Nibble)
    (acc : Bytes × Bool) (h : ks ∉ l.map Prod.fst) :
    l.foldl (fun acc kv => if ks = kv.1 then (kv.2, true) else acc) acc = acc := by
  induction l generalizing acc with
  | nil => rfl
  | cons kv rest ih =>
    simp only [List.map_cons, List.mem_cons, not_or] at h
    simp only [List.foldl_cons, if_neg h.1]
    exact ih acc h.2

/-- C1: in a trie built from the empty trie by any sequence of `Put` calls,
`Put(k, v)` completes and `Get(k)` then returns `v` with found = true. -/
theorem C1_get_after_put (ops : List (Bytes × Bytes)) (k v : Bytes) :
    ∃ t t', fromPuts ops = some t ∧ t.Put k v = some t' ∧ t'.Get k = (v, true) := by
  refine ⟨_, _, fromPuts_eq ops, Put_eq _ k v, ?_⟩
  simp [Trie.Get, getLoop_putNode]

/-- C2: in a trie built from the empty trie by any sequence of `Put` calls,
`Put(k, v)` leaves the result of `Get(k')`, value and found flag, unchanged for
every key `k'` different from `k`. -/
theorem C2_get_other_key (ops : List (Bytes × Bytes)) (k v k' : Bytes) (hk : k' ≠ k) :
    ∃ t t', fromPuts ops = some t ∧ t.Put k v = some t' ∧ t'.Get k' = t.Get k' := by
  refine ⟨_, _, fromPuts_eq ops, Put_eq _ k v, ?_⟩
  have hne : FromBytes k' ≠ FromBytes k := fun h => hk (FromBytes_injective h)
  simp [Trie.Get, getLoop_putNode, hne]

theorem C2_get_other_key_witness :
    ([1, 2, 3] : Bytes) ≠ [1, 2, 3, 4] ∧
    ∃ t t', fromPuts [([1, 2, 3], [7]), ([1, 2, 5], [8])] = some t ∧
      t.Put [1, 2, 3, 4] [9] = some t' ∧ t'.Get [1, 2, 3] = t.Get [1, 2, 3] :=
  ⟨by decide, C2_get_other_key _ _ _ _ (by decide)⟩

/-- C3: in a trie built from the empty trie by a sequence of `Put` calls, `Get`
of a key that was the key of none of them returns found = false (with a nil
value); in particular `Get` on a new trie returns found = false for every
key. -/
theorem C3_get_absent (ops : List (Bytes × Bytes)) (k : Bytes) (hk : k ∉ ops.map Prod.fst) :
    (∃ t, fromPuts ops = some t ∧ t.Get k = ([], false)) ∧
      ∀ k' : Bytes, NewTrie.Get k' = ([], false) := by
  refine ⟨⟨_, fromPuts_eq ops, ?_⟩, fun k' => getLoop_empty _⟩
  simp only [Trie.Get, getLoop_putsNode, lastVal]
  apply foldl_lastVal_absent
  simp only [nibbleOps, List.map_map, List.mem_map, Function.comp, not_exists, not_and]
  intro kv hkv heq
  apply hk
  have := FromBytes_injective heq
  exact List.mem_map.mpr ⟨kv, hkv, this⟩

theorem C3_get_absent_witness :
    ([1, 2] : Bytes) ∉ ([([1, 2, 3], [7]), ([1, 2, 5], [8])] : List (Bytes × Bytes)).map Prod.fst ∧
    ((∃ t, fromPuts [([1, 2, 3], [7]), ([1, 2, 5], [8])] = some t ∧ t.Get [1, 2] = ([], false)) ∧
      ∀ k' : Bytes, NewTrie.Get k' = ([], false)) :=
  ⟨by decide, C3_get_absent _ _ (by decide)⟩

/-! ## The shape invariant is kept by `Put` -/

theorem wrapExt_ne_empty (c : List Nibble) (cs : Nibble → Node) (val : Option Bytes) :
    wrapExt c (.branch cs val) ≠ .empty := by
  unfold wrapExt
  split <;> simp

theorem putAtLeaf_ne_empty (p : List Nibble) (o : Bytes) (ns : List Nibble) (v : Bytes) :
    putAtLeaf p o ns v ≠ .empty := by
  rcases leaf_cases p ns with rfl | ⟨b, nr, rfl⟩ | ⟨a, pr, rfl⟩ | ⟨c, a, pr, b, nr, rfl, rfl, hab⟩
  · rw [putAtLeaf_same]; simp
  · rw [putAtLeaf_longer]; exact wrapExt_ne_empty _ _ _
  · rw [putAtLeaf_shorter]; exact wrapExt_ne_empty _ _ _
  · rw [putAtLeaf_fork _ _ _ _ _ _ _ hab]; exact wrapExt_ne_empty _ _ _

theorem putNode_ne_empty (t : Node) (ns : List Nibble) (v : Bytes) :
    putNode t ns v ≠ .empty := by
  cases t with
  | empty => rw [putNode_empty]; simp
  | leaf p o => rw [putNode_leaf]; exact putAtLeaf_ne_empty p o ns v
  | ext p n =>
    rcases ext_cases p ns with ⟨r, rfl⟩ | ⟨a, pr, rfl⟩ | ⟨c, a, pr, b, nr, rfl, rfl, hab⟩
    · rw [putNode_ext_full]; simp
    · rw [putNode_ext_end]; exact wrapExt_ne_empty _ _ _
    · rw [putNode_ext_fork _ _ _ _ _ _ _ hab]; exact wrapExt_ne_empty _ _ _
  | branch cs val =>
    cases ns with
    | nil => rw [putNode_branch_nil]; simp
    | cons b r => rw [putNode_branch_cons]; simp

theorem isBranch_iff (t : Node) : IsBranch t = true ↔ ∃ cs val, t = .branch cs val := by
  cases t <;> simp [IsBranch]

theorem isBranch_putNode (t : Node) (ns : List Nibble) (v : Bytes) (h : IsBranch t = true) :
    IsBranch (putNode t ns v) = true := by
  obtain ⟨cs, val, rfl⟩ := (isBranch_iff t).mp h
  cases ns with
  | nil => rw [putNode_branch_nil]; rfl
  | cons b r => rw [putNode_branch_cons]; rfl

theorem WF_wrapExt (c : List Nibble) (cs : Nibble → Node) (val : Option Bytes)
    (h : WF (.branch cs val)) : WF (wrapExt c (.branch cs val)) := by
  unfold wrapExt
  split
  · exact h
  · rename_i hc
    exact ⟨hc, rfl, h⟩

theorem extRest_ne_empty (pr : List Nibble) (n : Node) (h : IsBranch n = true) :
    extRest pr n ≠ .empty := by
  obtain ⟨cs, val, rfl⟩ := (isBranch_iff n).mp h
  unfold extRest
  split <;> simp

theorem WF_extRest (pr : List Nibble) (n : Node) (h : IsBranch n = true) (hn : WF n) :
    WF (extRest pr n) := by
  unfold extRest
  split
  · exact hn
  · rename_i hc
    exact ⟨hc, h, hn⟩

theorem WF_split_value (a : Nibble) (x : Node) (w : Bytes) (hx : WF x) (hne : x ≠ .empty) :
    WF (.branch (Function.update noBranches a x) (some w)) := by
  refine ⟨fun i => ?_, Or.inl ⟨rfl, a, by simpa using hne⟩⟩
  by_cases hi : i = a
  · subst hi; simpa using hx
  · simp [Function.update_noteq hi, WF]

theorem WF_split_fork (a b : Nibble) (x y : Node) (hab : a ≠ b) (hx : WF x) (hy : WF y)
    (hxe : x ≠ .empty) (hye : y ≠ .empty) :
    WF (.branch (Function.update (Function.update noBranches a x) b y) none) := by
  refine ⟨fun i => ?_, Or.inr ⟨a, b, hab, ?_, by simpa using hye⟩⟩
  · by_cases hib : i = b
    · subst hib; simpa using hy
    · by_cases hia : i = a
      · subst hia; simpa [Function.update_noteq hib] using hx
      · simp [Function.update_noteq hib, Function.update_noteq hia, WF]
  · simpa [Function.update_noteq hab] using hxe

theorem WF_putAtLeaf (p : List Nibble) (o : Bytes) (ns : List Nibble) (v : Bytes) :
    WF (putAtLeaf p o ns v) := by
  rcases leaf_cases p ns with rfl | ⟨b, nr, rfl⟩ | ⟨a, pr, rfl⟩ | ⟨c, a, pr, b, nr, rfl, rfl, hab⟩
  · rw [putAtLeaf_same]; trivial
  · rw [putAtLeaf_longer]
    exact WF_wrapExt _ _ _ (WF_split_value _ _ _ trivial (by simp))
  · rw [putAtLeaf_shorter]
    exact WF_wrapExt _ _ _ (WF_split_value _ _ _ trivial (by simp))
  · rw [putAtLeaf_fork _ _ _ _ _ _ _ hab]
    exact WF_wrapExt _ _ _ (WF_split_fork _ _ _ _ hab trivial trivial (by simp) (by simp))

theorem TwoOccupied_update (cs : Nibble → Node) (val : Option Bytes) (b : Nibble) (x : Node)
    (hx : x ≠ .empty) (h : TwoOccupied cs val) : TwoOccupied (Function.update cs b x) val := by
  have key : ∀ i, cs i ≠ .empty → Function.update cs b x i ≠ .empty := by
    intro i hi
    by_cases hib : i = b
    · subst hib; simpa using hx
    · simpa [Function.update_noteq hib] using hi
  rcases h with ⟨hv, i, hi⟩ | ⟨i, j, hij, hi, hj⟩
  · exact Or.inl ⟨hv, i, key i hi⟩
  · exact Or.inr ⟨i, j, hij, key i hi, key j hj⟩

/-- The loop of `Put` keeps the shape invariant. -/
theorem WF_putNode (t : Node) (ns : List Nibble) (v : Bytes) (h : WF t) :
    WF (putNode t ns v) := by
  induction t generalizing ns with
  | empty => rw [putNode_empty]; trivial
  | leaf p o => rw [putNode_leaf]; exact WF_putAtLeaf p o ns v
  | ext p n ih =>
    obtain ⟨hp, hb, hn⟩ := h
    rcases ext_cases p ns with ⟨r, rfl⟩ | ⟨a, pr, rfl⟩ | ⟨c, a, pr, b, nr, rfl, rfl, hab⟩
    · rw [putNode_ext_full]
      exact ⟨hp, isBranch_putNode n r v hb, ih r hn⟩
    · rw [putNode_ext_end]
      exact WF_wrapExt _ _ _ (WF_split_value _ _ _ (WF_extRest pr n hb hn)
        (extRest_ne_empty pr n hb))
    · rw [putNode_ext_fork _ _ _ _ _ _ _ hab]
      exact WF_wrapExt _ _ _ (WF_split_fork _ _ _ _ hab (WF_extRest pr n hb hn) trivial
        (extRest_ne_empty pr n hb) (by simp))
  | branch cs val ih =>
    obtain ⟨hcs, htwo⟩ := h
    cases ns with
    | nil =>
      rw [putNode_branch_nil]
      refine ⟨hcs, ?_⟩
      rcases htwo with ⟨_, i, hi⟩ | h2
      · exact Or.inl ⟨rfl, i, hi⟩
      · exact Or.inr h2
    | cons b r =>
      rw [putNode_branch_cons]
      refine ⟨fun i => ?_, TwoOccupied_update cs val b _ (putNode_ne_empty _ _ _) htwo⟩
      by_cases hib : i = b
      · subst hib; simpa using ih i r (hcs i)
      · simpa [Function.update_noteq hib] using hcs i

theorem WF_putsNode (l : List (List Nibble × Bytes)) : WF (putsNode l) := by
  have key : ∀ (l : List (List Nibble × Bytes)) (t : Node), WF t →
      WF (l.foldl (fun t kv => putNode t kv.1 kv.2) t) := by
    intro l
    induction l with
    | nil => intro t ht; exact ht
    | cons kv rest ih => intro t ht; exact ih _ (WF_putNode t kv.1 kv.2 ht)
  exact key l .empty trivial

/-! ## A tree with the shape invariant is determined by its lookups -/

theorem exists_key (t : Node) (h : WF t) (hne : t ≠ .empty) :
    ∃ ks, (getLoop t ks).2 = true := by
  induction t with
  | empty => exact absurd rfl hne
  | leaf p v => exact ⟨p, by simp [getLoop_leaf]⟩
  | ext p n ih =>
    obtain ⟨_, hb, hn⟩ := h
    obtain ⟨cs, val, rfl⟩ := (isBranch_iff n).mp hb
    obtain ⟨ks, hks⟩ := ih hn (by simp)
    exact ⟨p ++ ks, by rw [getLoop_ext_append]; exact hks⟩
  | branch cs val ih =>
    obtain ⟨hcs, htwo⟩ := h
    rcases htwo with ⟨hv, _⟩ | ⟨i, _, _, hi, _⟩
    · exact ⟨[], by simpa [getLoop_branch_nil] using hv⟩
    · obtain ⟨ks, hks⟩ := ih i (hcs i) hi
      exact ⟨i :: ks, by rw [getLoop_branch_cons]; exact hks⟩

theorem branch_two_keys (cs : Nibble → Node) (val : Option Bytes) (h : WF (.branch cs val)) :
    ∃ k1 k2, k1 ≠ k2 ∧ (getLoop (.branch cs val) k1).2 = true ∧
      (getLoop (.branch cs val) k2).2 = true := by
  obtain ⟨hcs, htwo⟩ := h
  rcases htwo with ⟨hv, i, hi⟩ | ⟨i, j, hij, hi, hj⟩
  · obtain ⟨ks, hks⟩ := exists_key (cs i) (hcs i) hi
    exact ⟨[], i :: ks, by simp, by simpa [getLoop_branch_nil] using hv,
      by rw [getLoop_branch_cons]; exact hks⟩
  · obtain ⟨ks, hks⟩ := exists_key (cs i) (hcs i) hi
    obtain ⟨ks', hks'⟩ := exists_key (cs j) (hcs j) hj
    exact ⟨i :: ks, j :: ks', by simp [hij], by rw [getLoop_branch_cons]; exact hks,
      by rw [getLoop_branch_cons]; exact hks'⟩

theorem branch_spread (cs : Nibble → Node) (val : Option Bytes) (h : WF (.branch cs val))
    (a : Nibble) :
    ∃ ks, (getLoop (.branch cs val) ks).2 = true ∧ ∀ r, ks ≠ a :: r := by
  obtain ⟨hcs, htwo⟩ := h
  rcases htwo with ⟨hv, _⟩ | ⟨i, j, hij, hi, hj⟩
  · exact ⟨[], by simpa [getLoop_branch_nil] using hv, by simp⟩
  · by_cases hia : i = a
    · obtain ⟨ks, hks⟩ := exists_key (cs j) (hcs j) hj
      refine ⟨j :: ks, by rw [getLoop_branch_cons]; exact hks, ?_⟩
      intro r hr
      simp at hr
      exact hij (hia.trans hr.1.symm)
    · obtain ⟨ks, hks⟩ := exists_key (cs i) (hcs i) hi
      refine ⟨i :: ks, by rw [getLoop_branch_cons]; exact hks, ?_⟩
      intro r hr
      simp at hr
      exact hia hr.1

theorem found_leaf (p : List Nibble) (v : Bytes) (ks : List Nibble)
    (h : (getLoop (.leaf p v) ks).2 = true) : ks = p := by
  rw [getLoop_leaf] at h
  by_contra hne
  simp [hne] at h

theorem found_ext (p : List Nibble) (n : Node) (ks : List Nibble)
    (h : (getLoop (.ext p n) ks).2 = true) : ∃ r, ks = p ++ r := by
  by_contra hne
  rw [getLoop_ext_miss _ _ _ hne] at h
  simp at h

/-- Two trees with the shape invariant and the same lookups are the same tree. -/
theorem eq_of_getLoop_eq (t1 t2 : Node) (h1 : WF t1) (h2 : WF t2)
    (h : ∀ ks, getLoop t1 ks = getLoop t2 ks) : t1 = t2 := by
  induction t1 generalizing t2 with
  | empty =>
    by_contra hne
    obtain ⟨ks, hks⟩ := exists_key t2 h2 (fun h' => hne h'.symm)
    rw [← h ks, getLoop_empty] at hks
    simp at hks
  | leaf p v =>
    have hone : ∀ ks, (getLoop t2 ks).2 = true → ks = p := by
      intro ks hks
      rw [← h ks] at hks
      exact found_leaf p v ks hks
    cases t2 with
    | empty =>
      have := h p
      simp [getLoop_leaf, getLoop_empty] at this
    | leaf q w =>
      have := h q
      simp only [getLoop_leaf, if_true] at this
      by_cases hqp : q = p
      · subst hqp
        simp at this
        rw [this]
      · simp [hqp] at this
    | ext q n =>
      obtain ⟨_, hb, hn⟩ := h2
      obtain ⟨cs, val, rfl⟩ := (isBranch_iff n).mp hb
      obtain ⟨k1, k2, hne, hk1, hk2⟩ := branch_two_keys cs val hn
      have e1 := hone (q ++ k1) (by rw [getLoop_ext_append]; exact hk1)
      have e2 := hone (q ++ k2) (by rw [getLoop_ext_append]; exact hk2)
      exact absurd (List.append_cancel_left (e1.trans e2.symm)) hne
    | branch cs val =>
      obtain ⟨k1, k2, hne, hk1, hk2⟩ := branch_two_keys cs val h2
      exact absurd ((hone k1 hk1).trans (hone k2 hk2).symm) hne
  | ext p n ih =>
    obtain ⟨hp, hb, hn⟩ := h1
    obtain ⟨cs, val, rfl⟩ := (isBranch_iff n).mp hb
    have hpre : ∀ ks, (getLoop t2 ks).2 = true → ∃ r, ks = p ++ r := by
      intro ks hks
      rw [← h ks] at hks
      exact found_ext p _ ks hks
    cases t2 with
    | empty =>
      obtain ⟨ks, hks⟩ := exists_key (.ext p (.branch cs val)) ⟨hp, hb, hn⟩ (by simp)
      rw [h ks, getLoop_empty] at hks
      simp at hks
    | leaf q w =>
      obtain ⟨k1, k2, hne, hk1, hk2⟩ := branch_two_keys cs val hn
      have e1 : (getLoop (.leaf q w) (p ++ k1)).2 = true := by
        rw [← h, getLoop_ext_append]; exact hk1
      have e2 : (getLoop (.leaf q w) (p ++ k2)).2 = true := by
        rw [← h, getLoop_ext_append]; exact hk2
      exact absurd (List.append_cancel_left ((found_leaf _ _ _ e1).trans
        (found_leaf _ _ _ e2).symm)) hne
    | branch cs2 val2 =>
      cases p with
      | nil => exact absurd rfl hp
      | cons a pr =>
        obtain ⟨ks, hks, hna⟩ := branch_spread cs2 val2 h2 a
        obtain ⟨r, hr⟩ := hpre ks hks
        exact absurd hr (hna _)
    | ext q n2 =>
      obtain ⟨hq, hb2, hn2⟩ := h2
      obtain ⟨cs2, val2, rfl⟩ := (isBranch_iff n2).mp hb2
      have hpq : q = p := by
        rcases leaf_cases p q with hqp | ⟨b, nr, rfl⟩ | ⟨a, pr, rfl⟩ |
          ⟨c, a, pr, b, nr, rfl, rfl, hab⟩
        · exact hqp
        · -- q = p ++ b :: nr: a key of the first tree that leaves p by another nibble
          obtain ⟨ks, hks, hna⟩ := branch_spread cs val hn b
          have e : (getLoop (.ext (p ++ b :: nr) (.branch cs2 val2)) (p ++ ks)).2 = true := by
            rw [← h, getLoop_ext_append]; exact hks
          obtain ⟨r, hr⟩ := found_ext _ _ _ e
          rw [List.append_assoc] at hr
          exact absurd (List.append_cancel_left hr) (hna _)
        · -- p = q ++ a :: pr
          obtain ⟨ks, hks, hna⟩ := branch_spread cs2 val2 hn2 a
          have e : (getLoop (.ext (q ++ a :: pr) (.branch cs val)) (q ++ ks)).2 = true := by
            rw [h, getLoop_ext_append]; exact hks
          obtain ⟨r, hr⟩ := found_ext _ _ _ e
          rw [List.append_assoc] at hr
          exact absurd (List.append_cancel_left hr) (hna _)
        · obtain ⟨ks, hks⟩ := exists_key (.branch cs val) hn (by simp)
          have e : (getLoop (.ext (c ++ b :: nr) (.branch cs2 val2))
              ((c ++ a :: pr) ++ ks)).2 = true := by
            rw [← h, getLoop_ext_append]; exact hks
          obtain ⟨r, hr⟩ := found_ext _ _ _ e
          rw [List.append_assoc, List.append_assoc] at hr
          have := List.append_cancel_left hr
          simp at this
          exact absurd this.1 hab
      subst hpq
      have hsub : ∀ ks, getLoop (.branch cs val) ks = getLoop (.branch cs2 val2) ks := by
        intro ks
        have := h (q ++ ks)
        rwa [getLoop_ext_append, getLoop_ext_append] at this
      rw [ih _ hn hn2 hsub]
  | branch cs val ih =>
    cases t2 with
    | empty =>
      obtain ⟨ks, hks⟩ := exists_key (.branch cs val) h1 (by simp)
      rw [h ks, getLoop_empty] at hks
      simp at hks
    | leaf q w =>
      obtain ⟨k1, k2, hne, hk1, hk2⟩ := branch_two_keys cs val h1
      rw [h] at hk1 hk2
      exact absurd ((found_leaf _ _ _ hk1).trans (found_leaf _ _ _ hk2).symm) hne
    | ext q n2 =>
      obtain ⟨hq, _, _⟩ := h2
      cases q with
      | nil => exact absurd rfl hq
      | cons a qr =>
        obtain ⟨ks, hks, hna⟩ := branch_spread cs val h1 a
        rw [h] at hks
        obtain ⟨r, hr⟩ := found_ext _ _ _ hks
        exact absurd hr (hna _)
    | branch cs2 val2 =>
      have hval : val = val2 := by
        have := h []
        simp only [getLoop_branch_nil, Prod.mk.injEq] at this
        cases val <;> cases val2 <;> simp_all
      have hcs : cs = cs2 := by
        funext i
        apply ih i _ (h1.1 i) (h2.1 i)
        intro ks
        have := h (i :: ks)
        rwa [getLoop_branch_cons, getLoop_branch_cons] at this
      rw [hval, hcs]

/-! ## Hashing is defined on trees with the shape invariant -/

theorem ToBytes_even (ns : List Nibble) (h : ns.length % 2 = 0) : ∃ bs, ToBytes ns = some bs := by
  induction ns using ToBytes.induct with
  | case1 => exact ⟨[], rfl⟩
  | case2 a => simp at h
  | case3 hi lo rest ih =>
    have h' : rest.length % 2 = 0 := by simp at h; omega
    obtain ⟨bs, hbs⟩ := ih h'
    rw [ToBytes, hbs]
    exact ⟨_, rfl⟩

theorem ToPrefixed_even (ns : List Nibble) (isLeaf : Bool) :
    (ToPrefixed ns isLeaf).length % 2 = 0 := by
  unfold ToPrefixed
  split <;> simp <;> omega

theorem ToBytes_ToPrefixed (ns : List Nibble) (isLeaf : Bool) :
    ∃ bs, ToBytes (ToPrefixed ns isLeaf) = some bs :=
  ToBytes_even _ (ToPrefixed_even ns isLeaf)

theorem allSome_map_some {α β : Type} (f : α → Option β) (l : List α)
    (h : ∀ x ∈ l, ∃ y, f x = some y) : ∃ r, allSome (l.map f) = some r := by
  induction l with
  | nil => exact ⟨[], rfl⟩
  | cons a rest ih =>
    obtain ⟨y, hy⟩ := h a (by simp)
    obtain ⟨r, hr⟩ := ih (fun x hx => h x (by simp [hx]))
    refine ⟨y :: r, ?_⟩
    rw [List.map_cons, hy, allSome, hr]
    rfl

theorem isEmptyNode_eq_false (t : Node) (h : t ≠ .empty) : IsEmptyNode t = false := by
  cases t <;> simp_all [IsEmptyNode]

theorem Raw_isSome (X : Externals) (t : Node) (h : WF t) (hne : t ≠ .empty) :
    ∃ r, Node.Raw X t = some r := by
  induction t with
  | empty => exact absurd rfl hne
  | leaf p v =>
    obtain ⟨bs, hbs⟩ := ToBytes_ToPrefixed p true
    rw [Node.Raw, hbs]
    exact ⟨_, rfl⟩
  | ext p n ih =>
    obtain ⟨_, hb, hn⟩ := h
    obtain ⟨bs, hbs⟩ := ToBytes_ToPrefixed p false
    obtain ⟨cs, val, rfl⟩ := (isBranch_iff n).mp hb
    obtain ⟨r, hr⟩ := ih hn (by simp)
    rw [Node.Raw, hbs, hr]
    exact ⟨_, rfl⟩
  | branch cs val ih =>
    obtain ⟨hcs, _⟩ := h
    have hall : ∀ i ∈ List.finRange 16, ∃ y,
        (fun i => if IsEmptyNode (cs i) then some (RawItem.bytes EmptyNodeRaw)
          else (Node.Raw X (cs i)).map (childRef X)) i = some y := by
      intro i _
      by_cases hi : cs i = .empty
      · simp only [hi, IsEmptyNode, if_true]
        exact ⟨_, rfl⟩
      · obtain ⟨r, hr⟩ := ih i (hcs i) hi
        simp only [isEmptyNode_eq_false _ hi, hr, Option.map_some']
        exact ⟨_, rfl⟩
    obtain ⟨r, hr⟩ := allSome_map_some _ _ hall
    rw [Node.Raw, hr]
    exact ⟨_, rfl⟩

theorem Hash_isSome (X : Externals) (t : Node) (h : WF t) : ∃ d, Hash X t = some d := by
  by_cases hne : t = .empty
  · subst hne; exact ⟨_, rfl⟩
  · obtain ⟨r, hr⟩ := Raw_isSome X t h hne
    simp only [Hash, Node.Hash, Serialize, isEmptyNode_eq_false t hne, hr, Option.map_some']
    exact ⟨_, rfl⟩

theorem Serialize_isSome (X : Externals) (t : Node) (h : WF t) :
    ∃ s, Serialize X t = some s := by
  by_cases hne : t = .empty
  · subst hne; exact ⟨_, rfl⟩
  · obtain ⟨r, hr⟩ := Raw_isSome X t h hne
    simp only [Serialize, isEmptyNode_eq_false t hne, hr, Option.map_some']
    exact ⟨_, rfl⟩

theorem TrieHash_eq (X : Externals) (t : Trie) : t.Hash X = Hash X t.root := rfl

/-! ## Order of insertion, overwriting, repeating -/

theorem foldl_lastVal_mem (l : List (List Nibble × Bytes)) (ks : List Nibble) (v : Bytes)
    (acc : Bytes × Bool) (hnd : (l.map Prod.fst).Nodup) (hmem : (ks, v) ∈ l) :
    l.foldl (fun acc kv => if ks = kv.1 then (kv.2, true) else acc) acc = (v, true) := by
  induction l generalizing acc with
  | nil => simp at hmem
  | cons kv rest ih =>
    simp only [List.map_cons, List.nodup_cons] at hnd
    simp only [List.foldl_cons]
    rcases List.mem_cons.mp hmem with heq | hrest
    · subst heq
      simp only [if_true]
      exact foldl_lastVal_absent rest ks _ hnd.1
    · exact ih _ hnd.2 hrest

theorem lastVal_perm (l1 l2 : List (List Nibble × Bytes)) (hperm : l1.Perm l2)
    (hnd : (l1.map Prod.fst).Nodup) (ks : List Nibble) : lastVal l1 ks = lastVal l2 ks := by
  have hnd2 : (l2.map Prod.fst).Nodup := (hperm.map Prod.fst).nodup_iff.mp hnd
  by_cases hk : ks ∈ l1.map Prod.fst
  · obtain ⟨⟨k, v⟩, hmem, hfst⟩ := List.mem_map.mp hk
    simp only at hfst
    subst hfst
    unfold lastVal
    rw [foldl_lastVal_mem l1 k v _ hnd hmem, foldl_lastVal_mem l2 k v _ hnd2 (hperm.subset hmem)]
  · have hk2 : ks ∉ l2.map Prod.fst := fun h => hk ((hperm.map Prod.fst).symm.subset h)
    unfold lastVal
    rw [foldl_lastVal_absent l1 ks _ hk, foldl_lastVal_absent l2 ks _ hk2]

theorem putsNode_perm (l1 l2 : List (List Nibble × Bytes)) (hperm : l1.Perm l2)
    (hnd : (l1.map Prod.fst).Nodup) : putsNode l1 = putsNode l2 := by
  apply eq_of_getLoop_eq _ _ (WF_putsNode l1) (WF_putsNode l2)
  intro ks
  rw [getLoop_putsNode, getLoop_putsNode]
  exact lastVal_perm l1 l2 hperm hnd ks

theorem nibbleOps_keys_nodup (ops : List (Bytes × Bytes)) (h : (ops.map Prod.fst).Nodup) :
    ((nibbleOps ops).map Prod.fst).Nodup := by
  have : (nibbleOps ops).map Prod.fst = (ops.map Prod.fst).map FromBytes := by
    simp [nibbleOps, List.map_map, Function.comp_def]
  rw [this]
  exact h.map FromBytes_injective

theorem putNode_overwrite (t : Node) (h : WF t) (ns : List Nibble) (v1 v2 : Bytes) :
    putNode (putNode t ns v1) ns v2 = putNode t ns v2 := by
  apply eq_of_getLoop_eq _ _ (WF_putNode _ ns v2 (WF_putNode t ns v1 h)) (WF_putNode t ns v2 h)
  intro ks
  rw [getLoop_putNode, getLoop_putNode, getLoop_putNode]
  split <;> rfl

/-- C4: Put-ing the same pairs with pairwise distinct keys in two different
orders gives the same tree, node for node, and so the same (defined) `Hash()`. -/
theorem C4_insertion_order (X : Externals) (l1 l2 : List (Bytes × Bytes)) (hperm : l1.Perm l2)
    (hnd : (l1.map Prod.fst).Nodup) :
    ∃ t d, fromPuts l1 = some t ∧ fromPuts l2 = some t ∧ t.Hash X = some d := by
  obtain ⟨d, hd⟩ := Hash_isSome X _ (WF_putsNode (nibbleOps l1))
  refine ⟨_, d, fromPuts_eq l1, ?_, hd⟩
  rw [fromPuts_eq l2, putsNode_perm (nibbleOps l1) (nibbleOps l2) (hperm.map _)
    (nibbleOps_keys_nodup l1 hnd)]

/-- C8: after `Put(k, v1)` then `Put(k, v2)` the tree, and so its (defined)
`Hash()`, is the one `Put(k, v2)` alone gives. -/
theorem C8_overwrite_no_trace (X : Externals) (ops : List (Bytes × Bytes)) (k v1 v2 : Bytes) :
    ∃ t t1 t2 d, fromPuts ops = some t ∧ t.Put k v1 = some t1 ∧ t1.Put k v2 = some t2 ∧
      t.Put k v2 = some t2 ∧ t2.Hash X = some d := by
  have hwf := WF_putsNode (nibbleOps ops)
  obtain ⟨d, hd⟩ := Hash_isSome X _ (WF_putNode _ (FromBytes k) v2 hwf)
  refine ⟨_, _, _, d, fromPuts_eq ops, Put_eq _ k v1, ?_, Put_eq _ k v2, hd⟩
  rw [Put_eq]
  simp only [putNode_overwrite _ hwf]

/-- C9: `Put(k, v)` performed a second time right after `Put(k, v)` leaves the
tree, and so its (defined) `Hash()`, as it was after the first. -/
theorem C9_put_twice (X : Externals) (ops : List (Bytes × Bytes)) (k v : Bytes) :
    ∃ t t1 d, fromPuts ops = some t ∧ t.Put k v = some t1 ∧ t1.Put k v = some t1 ∧
      t1.Hash X = some d := by
  have hwf := WF_putsNode (nibbleOps ops)
  obtain ⟨d, hd⟩ := Hash_isSome X _ (WF_putNode _ (FromBytes k) v hwf)
  refine ⟨_, _, d, fromPuts_eq ops, Put_eq _ k v, ?_, hd⟩
  rw [Put_eq]
  simp only [putNode_overwrite _ hwf]

theorem C4_insertion_order_witness :
    ([([1, 2, 3, 4], [104]), ([1, 2, 3, 4, 5, 6], [119])] : List (Bytes × Bytes)).Perm
        [([1, 2, 3, 4, 5, 6], [119]), ([1, 2, 3, 4], [104])] ∧
      (([([1, 2, 3, 4], [104]), ([1, 2, 3, 4, 5, 6], [119])] : List (Bytes × Bytes)).map
        Prod.fst).Nodup ∧
      ∃ t d, fromPuts [([1, 2, 3, 4], [104]), ([1, 2, 3, 4, 5, 6], [119])] = some t ∧
        fromPuts [([1, 2, 3, 4, 5, 6], [119]), ([1, 2, 3, 4], [104])] = some t ∧
        t.Hash toyExternals = some d :=
  ⟨by decide, by decide, C4_insertion_order toyExternals _ _ (by decide) (by decide)⟩

/-! ## `Prove` -/

theorem recordNode_isSome (X : Externals) (db : ProofDB) (t : Node) (h : WF t) :
    ∃ d s, Hash X t = some d ∧ Serialize X t = some s ∧ recordNode X db t = some (db.Put d s) := by
  obtain ⟨d, hd⟩ := Hash_isSome X t h
  obtain ⟨s, hs⟩ := Serialize_isSome X t h
  exact ⟨d, s, hd, hs, by simp [recordNode, hd, hs]⟩

/-- On a tree with the shape invariant the loop of `Prove` returns, and its found
flag is that of the loop of `Get`. -/
theorem proveLoop_found (X : Externals) (t : Node) (h : WF t) (ns : List Nibble) (db : ProofDB) :
    ∃ p, proveLoop X t ns db = some (p, (getLoop t ns).2) := by
  induction t generalizing ns db with
  | empty =>
    obtain ⟨d, s, _, _, hr⟩ := recordNode_isSome X db .empty h
    exact ⟨none, by simp [proveLoop, hr, getLoop]⟩
  | leaf p v =>
    obtain ⟨d, s, _, _, hr⟩ := recordNode_isSome X db (.leaf p v) h
    simp only [proveLoop, hr, Option.some_bind, getLoop]
    split
    · exact ⟨none, rfl⟩
    · exact ⟨_, rfl⟩
  | ext p n ih =>
    obtain ⟨d, s, _, _, hr⟩ := recordNode_isSome X db (.ext p n) h
    simp only [proveLoop, hr, Option.some_bind, getLoop]
    split
    · exact ⟨none, rfl⟩
    · exact ih h.2.2 _ _
  | branch cs val ih =>
    obtain ⟨d, s, _, _, hr⟩ := recordNode_isSome X db (.branch cs val) h
    cases ns with
    | nil =>
      simp only [proveLoop, hr, Option.some_bind, getLoop]
      exact ⟨_, rfl⟩
    | cons b r =>
      simp only [proveLoop, hr, Option.some_bind, getLoop]
      exact ih b (h.1 b) _ _

theorem proveLoop_found_of_some (X : Externals) (t : Node) (ns : List Nibble) (db : ProofDB)
    (r : Option ProofDB × Bool) (h : proveLoop X t ns db = some r) : r.2 = (getLoop t ns).2 := by
  induction t generalizing ns db with
  | empty =>
    cases hr : recordNode X db .empty with
    | none => simp [proveLoop, hr] at h
    | some db' =>
      simp [proveLoop, hr] at h
      simp [← h, getLoop]
  | leaf p v =>
    cases hr : recordNode X db (.leaf p v) with
    | none => simp [proveLoop, hr] at h
    | some db' =>
      simp only [proveLoop, hr, Option.some_bind] at h
      simp only [getLoop]
      split at h <;> rename_i hc <;> simp only [hc, if_true, if_false] <;>
        simp at h <;> simp [← h]
  | ext p n ih =>
    cases hr : recordNode X db (.ext p n) with
    | none => simp [proveLoop, hr] at h
    | some db' =>
      simp only [proveLoop, hr, Option.some_bind] at h
      simp only [getLoop]
      split at h <;> rename_i hc <;> simp only [hc, if_true, if_false]
      · simp at h; simp [← h]
      · exact ih _ _ h
  | branch cs val ih =>
    cases hr : recordNode X db (.branch cs val) with
    | none => cases ns <;> simp [proveLoop, hr] at h
    | some db' =>
      cases ns with
      | nil =>
        simp [proveLoop, hr] at h
        simp [← h, getLoop]
      | cons b rest =>
        simp only [proveLoop, hr, Option.some_bind] at h
        simp only [getLoop]
        exact ih b _ _ h

/-- C6: on every trie built by `Put` calls and for every key, `Prove(k)` returns
and its found flag is the found flag of `Get(k)`, false when `Get` reports not
found; and on any tree whatever, whenever `Prove(k)` returns, its found flag is
that of `Get(k)`. -/
theorem C6_prove_found_eq_get (X : Externals) :
    (∀ (ops : List (Bytes × Bytes)) (k : Bytes),
      ∃ t p, fromPuts ops = some t ∧ t.Prove X k = some (p, (t.Get k).2)) ∧
    ∀ (t : Trie) (k : Bytes) (r : Option ProofDB × Bool),
      t.Prove X k = some r → r.2 = (t.Get k).2 := by
  refine ⟨fun ops k => ?_, fun t k r h => proveLoop_found_of_some X _ _ _ r h⟩
  obtain ⟨p, hp⟩ := proveLoop_found X _ (WF_putsNode (nibbleOps ops)) (FromBytes k) NewProofDB
  exact ⟨_, p, fromPuts_eq ops, hp⟩

/-! ## The proof store -/

theorem hexDigit_injective : Function.Injective hexDigit := by
  intro a b
  revert a b
  decide

theorem hexKey_injective : Function.Injective hexKey := by
  intro a b h
  unfold hexKey at h
  have h1 : (FromBytes a).map hexDigit = (FromBytes b).map hexDigit := by injection h
  exact FromBytes_injective (List.map_injective_iff.mpr hexDigit_injective h1)

theorem lookup_filter_ne (l : List (String × Bytes)) (k k' : String) (h : k' ≠ k) :
    (l.filter fun e => e.1 ≠ k).lookup k' = l.lookup k' := by
  induction l with
  | nil => rfl
  | cons e rest ih =>
    obtain ⟨ek, ev⟩ := e
    by_cases hek : ek = k
    · subst hek
      have hbeq : (k' == ek) = false := by simpa using h
      simpa [List.filter, List.lookup, hbeq] using ih
    · by_cases hk : k' = ek
      · subst hk
        simp [List.filter, List.lookup, hek]
      · have hbeq : (k' == ek) = false := by simpa using hk
        simpa [List.filter, List.lookup, hek, hbeq] using ih

theorem ProofDB_Get_Put_same (w : ProofDB) (k v : Bytes) : (w.Put k v).Get k = some v := by
  simp [ProofDB.Put, ProofDB.Get, List.lookup]

theorem ProofDB_Get_Put_other (w : ProofDB) (k v k' : Bytes) (h : k' ≠ k) :
    (w.Put k v).Get k' = w.Get k' := by
  have hne : hexKey k' ≠ hexKey k := fun e => h (hexKey_injective e)
  have hbeq : (hexKey k' == hexKey k) = false := by simpa using hne
  simp only [ProofDB.Put, ProofDB.Get, List.lookup, hbeq]
  exact lookup_filter_ne w.kv _ _ hne

theorem hash_of_serialize (X : Externals) (n : Node) (hne : n ≠ .empty) (d s : Bytes)
    (hd : Hash X n = some d) (hs : Serialize X n = some s) : d = X.Keccak256 s := by
  simp only [Hash, Node.Hash, isEmptyNode_eq_false n hne, hs, Option.map_some'] at hd
  simpa using hd.symm

theorem recordNode_eq_some (X : Externals) (db db' : ProofDB) (n : Node)
    (h : recordNode X db n = some db') :
    ∃ d s, Hash X n = some d ∧ Serialize X n = some s ∧ db' = db.Put d s := by
  unfold recordNode at h
  split at h
  · rename_i d s hd hs
    exact ⟨d, s, hd, hs, by simpa using h.symm⟩
  · simp at h

theorem HasEntry_record (X : Externals) (hinj : Function.Injective X.Keccak256)
    (db db' : ProofDB) (m : Node) (hm : m ≠ .empty) (h : recordNode X db m = some db') :
    HasEntry X db' m ∧ ∀ n, n ≠ .empty → HasEntry X db n → HasEntry X db' n := by
  obtain ⟨d', s', hd', hs', rfl⟩ := recordNode_eq_some X db db' m h
  refine ⟨⟨d', s', hd', hs', ProofDB_Get_Put_same db d' s'⟩, ?_⟩
  rintro n hn ⟨d, s, hd, hs, hget⟩
  refine ⟨d, s, hd, hs, ?_⟩
  by_cases hdd : d = d'
  · subst hdd
    have e1 := hash_of_serialize X n hn d s hd hs
    have e2 := hash_of_serialize X m hm d s' hd' hs'
    have : s = s' := hinj (e1.symm.trans e2)
    rw [this]
    exact ProofDB_Get_Put_same db d s'
  · rw [ProofDB_Get_Put_other db d' s' d hdd]
    exact hget

/-- What the loop of `Prove` returns with a store: the entries it was given for
non-nil nodes are kept, every visited node has its entry, and the loop did not
leave by a `return nil, false`. -/
theorem proveLoop_store (X : Externals) (hinj : Function.Injective X.Keccak256) (t : Node)
    (ns : List Nibble) (db db' : ProofDB) (f : Bool)
    (h : proveLoop X t ns db = some (some db', f)) :
    (∀ n, n ≠ .empty → HasEntry X db n → HasEntry X db' n) ∧
      (∀ n ∈ visited t ns, HasEntry X db' n) ∧ stopsShort t ns = false := by
  induction t generalizing ns db with
  | empty =>
    cases hr : recordNode X db .empty with
    | none => simp [proveLoop, hr] at h
    | some db1 => simp [proveLoop, hr] at h
  | leaf p v =>
    cases hr : recordNode X db (.leaf p v) with
    | none => simp [proveLoop, hr] at h
    | some db1 =>
      simp only [proveLoop, hr, Option.some_bind] at h
      split at h
      · simp at h
      · rename_i hc
        simp only [Option.some.injEq, Prod.mk.injEq] at h
        obtain ⟨h1, _⟩ := h
        subst h1
        obtain ⟨hm, hkeep⟩ := HasEntry_record X hinj db db1 _ (by simp) hr
        refine ⟨hkeep, ?_, ?_⟩
        · intro n hn
          simp only [visited, List.mem_singleton] at hn
          subst hn
          exact hm
        · simp only [stopsShort, hc, decide_False]
  | ext p n ih =>
    cases hr : recordNode X db (.ext p n) with
    | none => simp [proveLoop, hr] at h
    | some db1 =>
      simp only [proveLoop, hr, Option.some_bind] at h
      obtain ⟨hm, hkeep⟩ := HasEntry_record X hinj db db1 _ (by simp) hr
      split at h
      · simp at h
      · rename_i hc
        obtain ⟨ih1, ih2, ih3⟩ := ih _ _ h
        refine ⟨fun m hm' he => ih1 m hm' (hkeep m hm' he), ?_, ?_⟩
        · intro m hm'
          simp only [visited, hc, if_false, List.mem_cons] at hm'
          rcases hm' with rfl | hm'
          · exact ih1 _ (by simp) hm
          · exact ih2 m hm'
        · simp only [stopsShort, hc, if_false]
          exact ih3
  | branch cs val ih =>
    cases hr : recordNode X db (.branch cs val) with
    | none => cases ns <;> simp [proveLoop, hr] at h
    | some db1 =>
      obtain ⟨hm, hkeep⟩ := HasEntry_record X hinj db db1 _ (by simp) hr
      cases ns with
      | nil =>
        simp only [proveLoop, hr, Option.some_bind, Option.some.injEq, Prod.mk.injEq] at h
        obtain ⟨h1, _⟩ := h
        subst h1
        refine ⟨hkeep, ?_, rfl⟩
        intro n hn
        simp only [visited, List.mem_singleton] at hn
        subst hn
        exact hm
      | cons b rest =>
        simp only [proveLoop, hr, Option.some_bind] at h
        obtain ⟨ih1, ih2, ih3⟩ := ih b _ _ h
        refine ⟨fun m hm' he => ih1 m hm' (hkeep m hm' he), ?_, ?_⟩
        · intro m hm'
          simp only [visited, List.mem_cons] at hm'
          rcases hm' with rfl | hm'
          · exact ih1 _ (by simp) hm
          · exact ih2 m hm'
        · simp only [stopsShort]
          exact ih3

theorem proveLoop_nil (X : Externals) (t : Node) (ns : List Nibble) (db : ProofDB) (f : Bool)
    (h : proveLoop X t ns db = some (none, f)) : stopsShort t ns = true := by
  induction t generalizing ns db with
  | empty => rfl
  | leaf p v =>
    cases hr : recordNode X db (.leaf p v) with
    | none => simp [proveLoop, hr] at h
    | some db1 =>
      simp only [proveLoop, hr, Option.some_bind] at h
      split at h
      · rename_i hc
        simp only [stopsShort, hc, decide_True]
      · simp at h
  | ext p n ih =>
    cases hr : recordNode X db (.ext p n) with
    | none => simp [proveLoop, hr] at h
    | some db1 =>
      simp only [proveLoop, hr, Option.some_bind] at h
      split at h
      · rename_i hc
        simp only [stopsShort, hc, if_true]
      · rename_i hc
        simp only [stopsShort, hc, if_false]
        exact ih _ _ h
  | branch cs val ih =>
    cases hr : recordNode X db (.branch cs val) with
    | none => cases ns <;> simp [proveLoop, hr] at h
    | some db1 =>
      cases ns with
      | nil => simp [proveLoop, hr] at h
      | cons b rest =>
        simp only [proveLoop, hr, Option.some_bind] at h
        simp only [stopsShort]
        exact ih b _ _ h

theorem found_not_stopsShort (t : Node) (ns : List Nibble) (h : (getLoop t ns).2 = true) :
    stopsShort t ns = false := by
  induction t generalizing ns with
  | empty => simp [getLoop] at h
  | leaf p v =>
    simp only [getLoop] at h
    split at h
    · simp at h
    · rename_i hc
      simp only [stopsShort, hc, decide_False]
  | ext p n ih =>
    simp only [getLoop] at h
    split at h
    · simp at h
    · rename_i hc
      simp only [stopsShort, hc, if_false]
      exact ih _ h
  | branch cs val ih =>
    cases ns with
    | nil => rfl
    | cons b rest =>
      simp only [getLoop] at h
      simp only [stopsShort]
      exact ih b _ h

theorem toyKeccak256_injective : Function.Injective toyKeccak256 := by
  intro x y h
  unfold toyKeccak256 at h
  split at h <;> split at h
  · rename_i hx hy; rw [hx, hy]
  · simp [EmptyNodeHash] at h
  · simp [EmptyNodeHash] at h
  · simpa using h

theorem toyKeccak256_ne_nil (x : Bytes) : toyKeccak256 x ≠ [] := by
  unfold toyKeccak256
  split <;> simp [EmptyNodeHash]

/-- C7 (amended): on every trie built by `Put` calls and for every key, `Prove(k)`
returns.  When the descent reaches the nil node, a leaf that does not match or
an extension that does not match, the returned store is nil and found is
false.  Otherwise (in particular whenever the key is found) the returned store
holds the entry `Hash(node) -> Serialize(node)` for each node visited on the
descent, the hash function being collision-free. -/
theorem C7_prove_store (X : Externals) (hinj : Function.Injective X.Keccak256)
    (ops : List (Bytes × Bytes)) (k : Bytes) :
    ∃ t p, fromPuts ops = some t ∧ t.Prove X k = some (p, (t.Get k).2) ∧
      (stopsShort t.root (FromBytes k) = true → p = none ∧ (t.Get k).2 = false) ∧
      (stopsShort t.root (FromBytes k) = false →
        ∃ db, p = some db ∧ ∀ n ∈ visited t.root (FromBytes k), HasEntry X db n) ∧
      ((t.Get k).2 = true → stopsShort t.root (FromBytes k) = false) := by
  obtain ⟨p, hp⟩ := proveLoop_found X _ (WF_putsNode (nibbleOps ops)) (FromBytes k) NewProofDB
  refine ⟨_, p, fromPuts_eq ops, hp, ?_, ?_, found_not_stopsShort _ _⟩
  · intro hs
    constructor
    · cases p with
      | none => rfl
      | some db =>
        have := (proveLoop_store X hinj _ _ _ _ _ hp).2.2
        rw [hs] at this
        exact absurd this (by simp)
    · by_contra hf
      have := found_not_stopsShort _ _ (by simpa [Trie.Get] using hf)
      rw [hs] at this
      exact absurd this (by simp)
  · intro hs
    cases p with
    | none =>
      have := proveLoop_nil X _ _ _ _ hp
      rw [hs] at this
      exact absurd this (by simp)
    | some db => exact ⟨db, rfl, (proveLoop_store X hinj _ _ _ _ _ hp).2.1⟩

theorem C7_prove_store_witness :
    Function.Injective toyExternals.Keccak256 ∧
    ∃ t db, fromPuts [([1, 2, 3], [104]), ([1, 2, 3, 4, 5], [119])] = some t ∧
      t.Prove toyExternals [1, 2, 3] = some (some db, true) ∧
      (visited t.root (FromBytes [1, 2, 3])).length = 2 ∧
      ∀ n ∈ visited t.root (FromBytes [1, 2, 3]), HasEntry toyExternals db n := by
  obtain ⟨t, p, h1, h2, _, h4, _⟩ :=
    C7_prove_store toyExternals toyKeccak256_injective
      [([1, 2, 3], [104]), ([1, 2, 3, 4, 5], [119])] [1, 2, 3]
  have ht : t = ⟨putNode (.leaf (FromBytes [1, 2, 3]) [104]) (FromBytes [1, 2, 3, 4, 5]) [119]⟩ :=
    Option.some.inj (h1.symm.trans rfl)
  subst ht
  obtain ⟨db, hp, hent⟩ := h4 (by decide)
  subst hp
  exact ⟨toyKeccak256_injective, _, db, h1, h2, by decide, hent⟩

/-- C7, as stated, fails on a new trie: the descent reaches the nil node and
`Prove` returns a nil store, not a store with an entry under `EmptyNodeHash`. -/
theorem C7_counterexample :
    Trie.Prove toyExternals NewTrie [1] = some (none, false) ∧
      ∀ X : Externals, Trie.Prove X NewTrie [1] = some (none, false) := by
  refine ⟨rfl, fun X => rfl⟩

/-! ## The compact path encoding and the raw form of a node are injective -/

theorem ToBytes_injective (a b : List Nibble) (x : Bytes) (ha : ToBytes a = some x)
    (hb : ToBytes b = some x) : a = b := by
  induction a using ToBytes.induct generalizing b x with
  | case1 =>
    simp only [ToBytes, Option.some.injEq] at ha
    subst ha
    match b, hb with
    | [], _ => rfl
    | [_], hb => simp [ToBytes] at hb
    | hi :: lo :: rest, hb => simp [ToBytes] at hb
  | case2 a => simp [ToBytes] at ha
  | case3 hi lo rest ih =>
    simp only [ToBytes, Option.map_eq_some'] at ha
    obtain ⟨xs, hxs, rfl⟩ := ha
    match b, hb with
    | [], hb => simp [ToBytes] at hb
    | [_], hb => simp [ToBytes] at hb
    | hi' :: lo' :: rest', hb =>
      simp only [ToBytes, Option.map_eq_some', List.cons.injEq, Fin.mk.injEq] at hb
      obtain ⟨ys, hys, hbyte, rfl⟩ := hb
      have h1 : hi = hi' := by apply Fin.ext; omega
      have h2 : lo = lo' := by apply Fin.ext; omega
      rw [h1, h2, ih rest' ys hxs hys]

theorem ToPrefixed_injective (p q : List Nibble) (a b : Bool)
    (h : ToPrefixed p a = ToPrefixed q b) : p = q ∧ a = b := by
  unfold ToPrefixed at h
  by_cases hp : p.length % 2 = 1 <;> by_cases hq : q.length % 2 = 1 <;>
    cases a <;> cases b <;> simp [hp, hq] at h <;> exact ⟨h, rfl⟩

theorem compact_injective (p q : List Nibble) (a b : Bool) (x : Bytes)
    (hp : ToBytes (ToPrefixed p a) = some x) (hq : ToBytes (ToPrefixed q b) = some x) :
    p = q ∧ a = b :=
  ToPrefixed_injective p q a b (ToBytes_injective _ _ x hp hq)

theorem childRef_injective (X : Externals) (hX : X.Faithful) (r r' : List RawItem)
    (h : childRef X r = childRef X r') : r = r' := by
  unfold childRef at h
  split at h <;> split at h
  · simp only [RawItem.bytes.injEq] at h
    simpa using hX.encode_injective (hX.keccak_injective h)
  · simp at h
  · simp at h
  · simpa using h

theorem childRef_ne_nil (X : Externals) (hX : X.Faithful) (r : List RawItem) :
    childRef X r ≠ .bytes [] := by
  unfold childRef
  split
  · simp only [ne_eq, RawItem.bytes.injEq]
    exact hX.keccak_ne_nil _
  · simp

theorem allSome_length {α : Type} (l : List (Option α)) (r : List α) (h : allSome l = some r) :
    r.length = l.length := by
  induction l generalizing r with
  | nil => simp [allSome] at h; simp [← h]
  | cons a rest ih =>
    cases a with
    | none => simp [allSome] at h
    | some x =>
      simp only [allSome, Option.map_eq_some'] at h
      obtain ⟨r', hr', rfl⟩ := h
      simp [ih r' hr']

theorem allSome_map_congr {α β : Type} (f g : α → Option β) (l : List α) (r : List β)
    (hf : allSome (l.map f) = some r) (hg : allSome (l.map g) = some r) :
    ∀ x ∈ l, f x = g x := by
  induction l generalizing r with
  | nil => simp
  | cons a rest ih =>
    simp only [List.map_cons] at hf hg
    cases hfa : f a with
    | none => simp [hfa, allSome] at hf
    | some y =>
      cases hga : g a with
      | none => simp [hga, allSome] at hg
      | some z =>
        simp only [hfa, allSome, Option.map_eq_some'] at hf
        simp only [hga, allSome, Option.map_eq_some'] at hg
        obtain ⟨r1, hr1, rfl⟩ := hf
        obtain ⟨r2, hr2, heq⟩ := hg
        simp only [List.cons.injEq] at heq
        obtain ⟨hzy, rfl⟩ := heq
        intro x hx
        rcases List.mem_cons.mp hx with rfl | hx
        · rw [hfa, hga, hzy]
        · exact ih r2 hr1 hr2 x hx

/-- The raw form of a branch, unfolded once. -/
theorem Raw_branch (X : Externals) (cs : Nibble → Node) (val : Option Bytes) :
    Node.Raw X (.branch cs val) =
      (allSome ((List.finRange 16).map fun i =>
        if IsEmptyNode (cs i) then some (RawItem.bytes EmptyNodeRaw)
        else (Node.Raw X (cs i)).map (childRef X))).map
        fun hashes => hashes ++ [.bytes (val.getD [])] := by
  rw [Node.Raw]

theorem Raw_branch_length (X : Externals) (cs : Nibble → Node) (val : Option Bytes)
    (r : List RawItem) (h : Node.Raw X (.branch cs val) = some r) : r.length = 17 := by
  rw [Raw_branch, Option.map_eq_some'] at h
  obtain ⟨hs, hhs, rfl⟩ := h
  have := allSome_length _ _ hhs
  simp at this
  simp [this]

theorem Raw_leaf_length (X : Externals) (p : List Nibble) (v : Bytes)
    (r : List RawItem) (h : Node.Raw X (.leaf p v) = some r) :
    ∃ pb, ToBytes (ToPrefixed p true) = some pb ∧ r = [.bytes pb, .bytes v] := by
  rw [Node.Raw, Option.map_eq_some'] at h
  obtain ⟨pb, hpb, rfl⟩ := h
  exact ⟨pb, hpb, rfl⟩

theorem Raw_ext_eq (X : Externals) (p : List Nibble) (n : Node)
    (r : List RawItem) (h : Node.Raw X (.ext p n) = some r) :
    ∃ pb rn, ToBytes (ToPrefixed p false) = some pb ∧ Node.Raw X n = some rn ∧
      r = [.bytes pb, childRef X rn] := by
  rw [Node.Raw] at h
  split at h
  · rename_i pb rn hpb hrn
    exact ⟨pb, rn, hpb, hrn, by simpa using h.symm⟩
  · simp at h

/-! ## When `Put` changes the hash -/

theorem Raw_wrapExt_ne_leaf (X : Externals) (c : List Nibble) (cs : Nibble → Node)
    (val : Option Bytes) (p : List Nibble) (o : Bytes) (r : List RawItem)
    (h1 : Node.Raw X (wrapExt c (.branch cs val)) = some r)
    (h2 : Node.Raw X (.leaf p o) = some r) : False := by
  obtain ⟨pb, hpb, rfl⟩ := Raw_leaf_length X p o r h2
  unfold wrapExt at h1
  split at h1
  · have := Raw_branch_length X cs val _ h1
    simp at this
  · obtain ⟨cb, rn, hcb, _, heq⟩ := Raw_ext_eq X c _ _ h1
    simp only [List.cons.injEq, RawItem.bytes.injEq] at heq
    rw [← heq.1] at hcb
    have := (compact_injective _ _ _ _ _ hpb hcb).2
    simp at this

theorem Raw_wrapExt_ne_ext (X : Externals) (c : List Nibble) (cs : Nibble → Node)
    (val : Option Bytes) (p : List Nibble) (n : Node) (hcp : c ≠ p) (r : List RawItem)
    (h1 : Node.Raw X (wrapExt c (.branch cs val)) = some r)
    (h2 : Node.Raw X (.ext p n) = some r) : False := by
  obtain ⟨pb, rn, hpb, _, rfl⟩ := Raw_ext_eq X p n r h2
  unfold wrapExt at h1
  split at h1
  · have := Raw_branch_length X cs val _ h1
    simp at this
  · obtain ⟨cb, rn', hcb, _, heq⟩ := Raw_ext_eq X c _ _ h1
    simp only [List.cons.injEq, RawItem.bytes.injEq] at heq
    rw [← heq.1] at hcb
    exact hcp (compact_injective _ _ _ _ _ hpb hcb).1.symm

theorem putAtLeaf_shape (p : List Nibble) (o : Bytes) (ns : List Nibble) (v : Bytes)
    (h : ns ≠ p) : ∃ c cs val, putAtLeaf p o ns v = wrapExt c (.branch cs val) := by
  rcases leaf_cases p ns with rfl | ⟨b, nr, rfl⟩ | ⟨a, pr, rfl⟩ | ⟨c, a, pr, b, nr, rfl, rfl, hab⟩
  · exact absurd rfl h
  · exact ⟨_, _, _, putAtLeaf_longer p b nr o v⟩
  · exact ⟨_, _, _, putAtLeaf_shorter ns a pr o v⟩
  · exact ⟨_, _, _, putAtLeaf_fork c a b pr nr o v hab⟩

theorem putNode_ext_split_shape (p : List Nibble) (n : Node) (ns : List Nibble) (v : Bytes)
    (h : ¬ ∃ r, ns = p ++ r) :
    ∃ c cs val, c ≠ p ∧ putNode (.ext p n) ns v = wrapExt c (.branch cs val) := by
  rcases ext_cases p ns with hr | ⟨a, pr, rfl⟩ | ⟨c, a, pr, b, nr, rfl, rfl, hab⟩
  · exact absurd hr h
  · exact ⟨ns, _, _, by simp, putNode_ext_end ns a pr n v⟩
  · exact ⟨c, _, _, by simp, putNode_ext_fork c a b pr nr n v hab⟩

/-- The loop of `Put` changes the raw form of the node it starts at, unless it
stores the empty value at a branch that held none. -/
theorem Raw_putNode_ne (X : Externals) (hX : X.Faithful) (v : Bytes) (t : Node) (hwf : WF t)
    (ns : List Nibble) (hget : getLoop t ns ≠ (v, true))
    (hexc : ¬ (v = [] ∧ endsAtBranch t ns = true ∧ (getLoop t ns).2 = false)) :
    Node.Raw X (putNode t ns v) ≠ Node.Raw X t := by
  induction t generalizing ns with
  | empty =>
    rw [putNode_empty]
    obtain ⟨r, hr⟩ := Raw_isSome X (.leaf ns v) trivial (by simp)
    rw [hr]
    simp [Node.Raw]
  | leaf p o =>
    intro heq
    obtain ⟨r, hr⟩ := Raw_isSome X (.leaf p o) trivial (by simp)
    rw [hr, putNode_leaf] at heq
    by_cases hnp : ns = p
    · subst hnp
      rw [putAtLeaf_same] at heq
      obtain ⟨pb, _, e1⟩ := Raw_leaf_length X ns v r heq
      obtain ⟨pb', _, e2⟩ := Raw_leaf_length X ns o r hr
      rw [e1] at e2
      simp only [List.cons.injEq, RawItem.bytes.injEq, and_true] at e2
      apply hget
      simp [getLoop_leaf, e2.2]
    · obtain ⟨c, cs, val, hshape⟩ := putAtLeaf_shape p o ns v hnp
      rw [hshape] at heq
      exact Raw_wrapExt_ne_leaf X c cs val p o r heq hr
  | ext p n ih =>
    intro heq
    obtain ⟨r, hr⟩ := Raw_isSome X (.ext p n) hwf (by simp)
    rw [hr] at heq
    by_cases hpre : ∃ s, ns = p ++ s
    · obtain ⟨s, rfl⟩ := hpre
      rw [putNode_ext_full] at heq
      obtain ⟨pb, rn, _, hrn, e1⟩ := Raw_ext_eq X p _ r heq
      obtain ⟨pb', rn', _, hrn', e2⟩ := Raw_ext_eq X p n r hr
      rw [e1] at e2
      simp only [List.cons.injEq, and_true] at e2
      have hrr := childRef_injective X hX _ _ e2.2
      refine ih hwf.2.2 s ?_ ?_ (by rw [hrn, hrn', hrr])
      · rwa [getLoop_ext_append] at hget
      · intro hc
        apply hexc
        rw [getLoop_ext_append]
        refine ⟨hc.1, ?_, hc.2.2⟩
        simp only [endsAtBranch, pml_self_append, lt_self_iff_false, if_false,
          List.drop_left]
        exact hc.2.1
    · obtain ⟨c, cs, val, hcp, hshape⟩ := putNode_ext_split_shape p n ns v hpre
      rw [hshape] at heq
      exact Raw_wrapExt_ne_ext X c cs val p n hcp r heq hr
  | branch cs val ih =>
    intro heq
    obtain ⟨r, hr⟩ := Raw_isSome X (.branch cs val) hwf (by simp)
    rw [hr] at heq
    cases ns with
    | nil =>
      rw [putNode_branch_nil, Raw_branch, Option.map_eq_some'] at heq
      rw [Raw_branch, Option.map_eq_some'] at hr
      obtain ⟨hs, hhs, e1⟩ := heq
      obtain ⟨hs', hhs', e2⟩ := hr
      rw [hhs] at hhs'
      simp only [Option.some.injEq] at hhs'
      subst hhs'
      rw [← e2] at e1
      simp only [List.append_cancel_left_eq, List.cons.injEq, RawItem.bytes.injEq,
        and_true, Option.getD_some] at e1
      cases val with
      | none =>
        apply hexc
        simp only [Option.getD_none] at e1
        exact ⟨e1, rfl, by simp [getLoop_branch_nil]⟩
      | some o =>
        apply hget
        simp only [Option.getD_some] at e1
        simp [getLoop_branch_nil, e1]
    | cons b rest =>
      rw [putNode_branch_cons, Raw_branch, Option.map_eq_some'] at heq
      rw [Raw_branch, Option.map_eq_some'] at hr
      obtain ⟨hs, hhs, e1⟩ := heq
      obtain ⟨hs', hhs', e2⟩ := hr
      rw [← e2] at e1
      simp only [List.append_cancel_right_eq] at e1
      subst e1
      have hb := allSome_map_congr _ _ _ _ hhs hhs' b (List.mem_finRange b)
      simp only [Function.update_same, isEmptyNode_eq_false _ (putNode_ne_empty _ _ _)] at hb
      by_cases hemp : cs b = .empty
      · rw [hemp] at hb
        simp only [IsEmptyNode, if_true, putNode_empty] at hb
        obtain ⟨rl, hrl⟩ := Raw_isSome X (.leaf rest v) trivial (by simp)
        rw [hrl] at hb
        simp only [Option.map_some', Bool.false_eq_true, if_false, Option.some.injEq] at hb
        exact childRef_ne_nil X hX rl hb
      · simp only [isEmptyNode_eq_false _ hemp, Bool.false_eq_true, if_false] at hb
        have hraw : Node.Raw X (putNode (cs b) rest v) = Node.Raw X (cs b) :=
          Option.map_injective (fun _ _ h => childRef_injective X hX _ _ h) hb
        refine ih b (hwf.1 b) rest ?_ ?_ hraw
        · rwa [getLoop_branch_cons] at hget
        · intro hc
          apply hexc
          rw [getLoop_branch_cons]
          exact ⟨hc.1, hc.2.1, hc.2.2⟩

theorem endsAtBranch_ext (p : List Nibble) (n : Node) (ns : List Nibble)
    (h : endsAtBranch (.ext p n) ns = true) :
    ∃ s, ns = p ++ s ∧ endsAtBranch n s = true := by
  by_cases hpre : ∃ s, ns = p ++ s
  · obtain ⟨s, rfl⟩ := hpre
    refine ⟨s, rfl, ?_⟩
    simpa [endsAtBranch, pml_self_append] using h
  · simp [endsAtBranch, pml_lt_of_not_append p ns hpre] at h

/-- Storing the empty value at a branch that holds none leaves the raw form of
every node on the way unchanged. -/
theorem Raw_putNode_eq (X : Externals) (t : Node) (ns : List Nibble)
    (h1 : endsAtBranch t ns = true) (h2 : (getLoop t ns).2 = false) :
    Node.Raw X (putNode t ns []) = Node.Raw X t := by
  induction t generalizing ns with
  | empty => simp [endsAtBranch] at h1
  | leaf p o => simp [endsAtBranch] at h1
  | ext p n ih =>
    obtain ⟨s, rfl, hs⟩ := endsAtBranch_ext p n ns h1
    rw [getLoop_ext_append] at h2
    rw [putNode_ext_full, Node.Raw, Node.Raw, ih s hs h2]
  | branch cs val ih =>
    cases ns with
    | nil =>
      rw [getLoop_branch_nil] at h2
      cases val with
      | some o => simp at h2
      | none => rw [putNode_branch_nil, Raw_branch, Raw_branch]; rfl
    | cons b rest =>
      simp only [endsAtBranch] at h1
      rw [getLoop_branch_cons] at h2
      have hne : cs b ≠ .empty := by
        intro he
        rw [he] at h1
        simp [endsAtBranch] at h1
      rw [putNode_branch_cons, Raw_branch, Raw_branch]
      have hfun : (fun i => if IsEmptyNode (Function.update cs b (putNode (cs b) rest []) i)
            then some (RawItem.bytes EmptyNodeRaw)
            else (Node.Raw X (Function.update cs b (putNode (cs b) rest []) i)).map (childRef X))
          = fun i => if IsEmptyNode (cs i) then some (RawItem.bytes EmptyNodeRaw)
            else (Node.Raw X (cs i)).map (childRef X) := by
        funext i
        by_cases hib : i = b
        · subst hib
          simp only [Function.update_same, isEmptyNode_eq_false _ (putNode_ne_empty _ _ _),
            isEmptyNode_eq_false _ hne, ih i rest h1 h2]
        · simp only [Function.update_noteq hib]
      rw [hfun]

theorem replicate_one_inj (n m : Nat) (x y : Bytes)
    (h : List.replicate n (1 : Byte) ++ 0 :: x = List.replicate m 1 ++ 0 :: y) :
    n = m ∧ x = y := by
  induction n generalizing m with
  | zero =>
    cases m with
    | zero => simpa using h
    | succ k => simp [List.replicate_succ] at h
  | succ k ih =>
    cases m with
    | zero => simp [List.replicate_succ] at h
    | succ j =>
      simp only [List.replicate_succ, List.cons_append, List.cons.injEq, true_and] at h
      obtain ⟨h1, h2⟩ := ih j h
      exact ⟨by omega, h2⟩

mutual
theorem toyEncode_append_inj : (a b : RawItem) → (r1 r2 : Bytes) →
    toyEncode a ++ r1 = toyEncode b ++ r2 → a = b ∧ r1 = r2
  | .bytes x, .bytes y, r1, r2, h => by
    simp only [toyEncode, List.cons_append, List.append_assoc, List.cons.injEq, true_and] at h
    obtain ⟨hlen, happ⟩ := replicate_one_inj _ _ _ _ h
    obtain ⟨hxy, hr⟩ := List.append_inj happ hlen
    exact ⟨by rw [hxy], hr⟩
  | .bytes x, .list m, r1, r2, h => by simp [toyEncode] at h
  | .list l, .bytes y, r1, r2, h => by simp [toyEncode] at h
  | .list l, .list m, r1, r2, h => by
    simp only [toyEncode, List.cons_append, List.cons.injEq, true_and] at h
    obtain ⟨hlm, hr⟩ := toyEncodeList_append_inj l m r1 r2 h
    exact ⟨by rw [hlm], hr⟩
theorem toyEncodeList_append_inj : (l m : List RawItem) → (r1 r2 : Bytes) →
    toyEncodeList l ++ r1 = toyEncodeList m ++ r2 → l = m ∧ r1 = r2
  | [], [], r1, r2, h => by simpa [toyEncodeList] using h
  | [], y :: ys, r1, r2, h => by simp [toyEncodeList] at h
  | x :: xs, [], r1, r2, h => by simp [toyEncodeList] at h
  | x :: xs, y :: ys, r1, r2, h => by
    simp only [toyEncodeList, List.cons_append, List.append_assoc, List.cons.injEq,
      true_and] at h
    obtain ⟨hxy, h2⟩ := toyEncode_append_inj x y _ _ h
    obtain ⟨hrest, hr⟩ := toyEncodeList_append_inj xs ys r1 r2 h2
    exact ⟨by rw [hxy, hrest], hr⟩
end

theorem toyEncode_injective : Function.Injective toyEncode := by
  intro a b h
  exact (toyEncode_append_inj a b [] [] (by simp [h])).1

theorem toyExternals_faithful : toyExternals.Faithful where
  keccak_injective := toyKeccak256_injective
  encode_injective := toyEncode_injective
  keccak_ne_nil := toyKeccak256_ne_nil
  empty_hash := by simp [toyExternals, toyKeccak256, EmptyNodeRaw]

theorem Hash_eq_some (X : Externals) (n : Node) (hne : n ≠ .empty) (d : Bytes)
    (h : Hash X n = some d) :
    ∃ r, Node.Raw X n = some r ∧ d = X.Keccak256 (X.EncodeToBytes (.list r)) := by
  simp only [Hash, Node.Hash, Serialize, isEmptyNode_eq_false n hne, Bool.false_eq_true,
    if_false, Option.map_map, Option.map_eq_some'] at h
  obtain ⟨r, hr, rfl⟩ := h
  exact ⟨r, hr, rfl⟩

theorem Hash_putNode_ne (X : Externals) (hX : X.Faithful) (v : Bytes) (t : Node) (hwf : WF t)
    (ns : List Nibble) (hget : getLoop t ns ≠ (v, true))
    (hexc : ¬ (v = [] ∧ endsAtBranch t ns = true ∧ (getLoop t ns).2 = false))
    (d d' : Bytes) (hd : Hash X t = some d) (hd' : Hash X (putNode t ns v) = some d') :
    d' ≠ d := by
  intro hdd
  subst hdd
  obtain ⟨r', hr', e'⟩ := Hash_eq_some X _ (putNode_ne_empty t ns v) d' hd'
  by_cases hne : t = .empty
  · subst hne
    simp only [Hash, IsEmptyNode, if_true, Option.some.injEq] at hd
    rw [← hd, ← hX.empty_hash] at e'
    have := hX.encode_injective (hX.keccak_injective e')
    simp at this
  · obtain ⟨r, hr, e⟩ := Hash_eq_some X t hne d' hd
    rw [e] at e'
    have := hX.encode_injective (hX.keccak_injective e')
    simp only [RawItem.list.injEq] at this
    exact Raw_putNode_ne X hX v t hwf ns hget hexc (by rw [hr, hr', this])

theorem Hash_putNode_eq (X : Externals) (t : Node) (ns : List Nibble)
    (h1 : endsAtBranch t ns = true) (h2 : (getLoop t ns).2 = false) :
    Hash X (putNode t ns []) = Hash X t := by
  have hne : t ≠ .empty := by
    intro he
    rw [he] at h1
    simp [endsAtBranch] at h1
  simp only [Hash, Node.Hash, Serialize, isEmptyNode_eq_false _ hne,
    isEmptyNode_eq_false _ (putNode_ne_empty t ns []), Raw_putNode_eq X t ns h1 h2]

/-- On a trie built by `Put` calls, when `Get(k)` did not already return `v`,
`Put(k, v)` changes the (defined) `Hash()`, for a hash function and an encoding
that are injective, on every path of `Put` but one: when `v` is the empty byte
string and the descent for `k` ends at a branch that holds no value, `Hash()`
is unchanged. -/
theorem Hash_changes_after_put (X : Externals) (hX : X.Faithful) (ops : List (Bytes × Bytes))
    (k v : Bytes) :
    ∃ t t' d d', fromPuts ops = some t ∧ t.Put k v = some t' ∧ t.Hash X = some d ∧
      t'.Hash X = some d' ∧
      (t.Get k ≠ (v, true) →
        ¬ (v = [] ∧ endsAtBranch t.root (FromBytes k) = true ∧ (t.Get k).2 = false) →
        d' ≠ d) ∧
      (v = [] ∧ endsAtBranch t.root (FromBytes k) = true ∧ (t.Get k).2 = false → d' = d) := by
  have hwf := WF_putsNode (nibbleOps ops)
  obtain ⟨d, hd⟩ := Hash_isSome X _ hwf
  obtain ⟨d', hd'⟩ := Hash_isSome X _ (WF_putNode _ (FromBytes k) v hwf)
  refine ⟨_, _, d, d', fromPuts_eq ops, Put_eq _ k v, hd, hd', ?_, ?_⟩
  · intro hget hexc
    exact Hash_putNode_ne X hX v _ hwf _ hget hexc d d' hd hd'
  · rintro ⟨rfl, h1, h2⟩
    have := Hash_putNode_eq X _ _ h1 h2
    rw [hd, hd'] at this
    exact Option.some.inj this

theorem Hash_changes_after_put_example :
    toyExternals.Faithful ∧
    ∃ t t' d d', fromPuts [([1, 2, 3, 4], [104])] = some t ∧ t.Put [1, 2] [119] = some t' ∧
      t.Get [1, 2] ≠ ([119], true) ∧
      t.Hash toyExternals = some d ∧ t'.Hash toyExternals = some d' ∧ d' ≠ d := by
  obtain ⟨t, t', d, d', h1, h2, h3, h4, hne, _⟩ :=
    Hash_changes_after_put toyExternals toyExternals_faithful [([1, 2, 3, 4], [104])] [1, 2] [119]
  have ht : t = ⟨.leaf (FromBytes [1, 2, 3, 4]) [104]⟩ :=
    Option.some.inj (h1.symm.trans rfl)
  subst ht
  have hget : Trie.Get ⟨.leaf (FromBytes [1, 2, 3, 4]) [104]⟩ [1, 2] ≠ ([119], true) := by decide
  exact ⟨toyExternals_faithful, _, t', d, d', h1, h2, hget, h3, h4,
    hne hget (fun h => absurd h.1 (by decide))⟩

/-- C10, the code at the failing input: after `Put({12,34},{1})` and
`Put({12,56},{2})`, the call `Put({12}, {})` ends at the branch below the
extension, which holds no value, and sets its value to the empty byte string:
`Get({12})` goes from not found to found, and `Hash()` is what it was, with an
injective hash function and encoding and with any other.  The same `Put` with
a non-empty value changes `Hash()`. -/
theorem C10_empty_value_keeps_hash :
    toyExternals.Faithful ∧
    ∃ t t' t2 d d2, fromPuts [([0x12, 0x34], [1]), ([0x12, 0x56], [2])] = some t ∧
      t.Put [0x12] [] = some t' ∧
      t.Get [0x12] = ([], false) ∧ t'.Get [0x12] = ([], true) ∧
      t.Hash toyExternals = some d ∧ t'.Hash toyExternals = some d ∧
      (∀ X : Externals, t'.Hash X = t.Hash X) ∧
      t.Put [0x12] [3] = some t2 ∧ t2.Hash toyExternals = some d2 ∧ d2 ≠ d := by
  refine ⟨toyExternals_faithful, _, _, _, _, _, rfl, rfl, rfl, rfl, rfl, rfl, fun X => ?_,
    rfl, rfl, by decide⟩
  exact Hash_putNode_eq X (putsNode (nibbleOps [([0x12, 0x34], [1]), ([0x12, 0x56], [2])]))
    (FromBytes [0x12]) (by decide) (by decide)

/-! ## Decoding inverts the raw forms -/

theorem FromBytes_ToBytes (ns : List Nibble) (bs : Bytes) (h : ToBytes ns = some bs) :
    FromBytes bs = ns := by
  induction ns using ToBytes.induct generalizing bs with
  | case1 =>
    simp only [ToBytes, Option.some.injEq] at h
    subst h
    rfl
  | case2 a => simp [ToBytes] at h
  | case3 hi lo rest ih =>
    simp only [ToBytes, Option.map_eq_some'] at h
    obtain ⟨xs, hxs, rfl⟩ := h
    simp only [FromBytes, FromByte, List.cons_append, List.nil_append, ih xs hxs,
      List.cons.injEq, and_true]
    constructor
    · apply Fin.ext
      simp only
      omega
    · apply Fin.ext
      simp only
      omega

theorem decodeCompact_compact (p : List Nibble) (isLeaf : Bool) (pb : Bytes)
    (h : ToBytes (ToPrefixed p isLeaf) = some pb) : decodeCompact pb = some (p, isLeaf) := by
  have hfb := FromBytes_ToBytes _ _ h
  unfold decodeCompact
  rw [hfb]
  unfold ToPrefixed
  by_cases hp : p.length % 2 = 1 <;> cases isLeaf <;> simp [hp]

theorem decodeNode_leaf (pb v : Bytes) (p : List Nibble)
    (h : decodeCompact pb = some (p, true)) :
    decodeNode (.list [.bytes pb, .bytes v]) = some (.leaf p v) := by
  simp [decodeNode, h]

theorem decodeNode_ext (pb : Bytes) (x : RawItem) (p : List Nibble)
    (h : decodeCompact pb = some (p, false)) :
    decodeNode (.list [.bytes pb, x]) = some (.ext p x) := by
  simp [decodeNode, h]

theorem decodeNode_branch (hs : List RawItem) (w : Bytes) (h : hs.length = 16) :
    decodeNode (.list (hs ++ [.bytes w]))
      = some (.branch hs (if w = [] then none else some w)) := by
  unfold decodeNode
  split
  · rename_i heq
    simp at heq
  · rename_i heq
    simp at heq
  · rename_i pb x heq
    have := congrArg List.length (RawItem.list.inj heq)
    simp [h] at this
  · rename_i items _ heq
    have heq' := RawItem.list.inj heq
    subst heq'
    simp [h, List.getElem?_append_right]

theorem allSome_map_getD {α β : Type} (f : α → Option β) (l : List α) (hs : List β) (dflt : β)
    (h : allSome (l.map f) = some hs) (i : Nat) (hi : i < l.length) :
    f (l.get ⟨i, hi⟩) = some (hs.getD i dflt) := by
  induction l generalizing hs i with
  | nil => simp at hi
  | cons a rest ih =>
    simp only [List.map_cons] at h
    cases hfa : f a with
    | none => simp [hfa, allSome] at h
    | some y =>
      simp only [hfa, allSome, Option.map_eq_some'] at h
      obtain ⟨r1, hr1, rfl⟩ := h
      cases i with
      | zero => simpa using hfa
      | succ j =>
        have := ih r1 hr1 j (by simpa using hi)
        simpa using this

theorem Raw_branch_slot (X : Externals) (cs : Nibble → Node) (val : Option Bytes)
    (r : List RawItem) (h : Node.Raw X (.branch cs val) = some r) :
    ∃ hs, hs.length = 16 ∧ r = hs ++ [.bytes (val.getD [])] ∧
      ∀ b : Nibble, (if IsEmptyNode (cs b) then some (RawItem.bytes EmptyNodeRaw)
        else (Node.Raw X (cs b)).map (childRef X)) = some (hs.getD b.val (.bytes [])) := by
  rw [Raw_branch, Option.map_eq_some'] at h
  obtain ⟨hs, hhs, rfl⟩ := h
  refine ⟨hs, ?_, rfl, ?_⟩
  · have := allSome_length _ _ hhs
    simpa using this
  · intro b
    have := allSome_map_getD _ _ hs (.bytes []) hhs b.val (by simp)
    simpa using this

theorem visited_self (t : Node) (ns : List Nibble) : t ∈ visited t ns := by
  cases t with
  | empty => simp [visited]
  | leaf p v => simp [visited]
  | ext p n =>
    simp only [visited]
    split <;> simp
  | branch cs val => cases ns <;> simp [visited]

theorem resolveRef_childRef (X : Externals) (hX : X.Faithful) (D : Bytes → Option RawItem)
    (hD : ∀ r, D (X.EncodeToBytes r) = some r) (db : ProofDB) (n : Node) (hne : n ≠ .empty)
    (rn : List RawItem) (hrn : Node.Raw X n = some rn) (he : HasEntry X db n) :
    resolveRef D db (childRef X rn) = .ok (.list rn) := by
  unfold childRef
  split
  · obtain ⟨d, s, hd, hs, hget⟩ := he
    obtain ⟨r', hr', hd'⟩ := Hash_eq_some X n hne d hd
    rw [hrn] at hr'
    simp only [Option.some.injEq] at hr'
    subst hr'
    have hs' : s = X.EncodeToBytes (.list rn) := by
      simp only [Serialize, isEmptyNode_eq_false n hne, Bool.false_eq_true, if_false, hrn,
        Option.map_some', Option.some.injEq] at hs
      exact hs.symm
    rw [← hd']
    have hdne : d ≠ [] := by rw [hd']; exact hX.keccak_ne_nil _
    cases d with
    | nil => exact absurd rfl hdne
    | cons x xs =>
      simp only [resolveRef, fetchNode, hget, hs', hD]
  · rfl

/-- The loop of the verifier on the raw form of a tree whose nodes on the path
of a stored key are all in the store, with a step count of at least the number
of nodes on the path: it returns the stored value, except when the value is
the empty byte string held by a branch, where it answers `KeyNotProven`. -/
theorem verifyLoop_found (X : Externals) (hX : X.Faithful) (D : Bytes → Option RawItem)
    (hD : ∀ r, D (X.EncodeToBytes r) = some r) (db : ProofDB) (v : Bytes) (t : Node)
    (hwf : WF t) (ns : List Nibble) (r : List RawItem) (hget : getLoop t ns = (v, true))
    (hent : ∀ n ∈ visited t ns, HasEntry X db n) (hr : Node.Raw X t = some r)
    (fuel : Nat) (hfuel : (visited t ns).length ≤ fuel) :
    verifyLoop D db fuel (.list r) ns
      = some (if v = [] ∧ endsAtBranch t ns = true then .error .KeyNotProven else .ok v) := by
  induction t generalizing ns r fuel with
  | empty => simp [getLoop] at hget
  | leaf p o =>
    rw [getLoop_leaf] at hget
    by_cases hnp : ns = p
    · subst hnp
      simp only [if_true, Prod.mk.injEq, and_true] at hget
      subst hget
      obtain ⟨pb, hpb, rfl⟩ := Raw_leaf_length X ns o r hr
      cases fuel with
      | zero => simp [visited] at hfuel
      | succ f =>
        simp [verifyLoop, verifyStep, decodeNode_leaf pb o ns (decodeCompact_compact _ _ _ hpb),
          endsAtBranch]
    · simp [hnp] at hget
  | ext p n ih =>
    obtain ⟨s, rfl⟩ := found_ext p n ns (by rw [hget])
    rw [getLoop_ext_append] at hget
    obtain ⟨pb, rn, hpb, hrn, rfl⟩ := Raw_ext_eq X p n r hr
    have hvis : visited (.ext p n) (p ++ s) = .ext p n :: visited n s := by
      simp [visited, pml_self_append]
    have hends : endsAtBranch (.ext p n) (p ++ s) = endsAtBranch n s := by
      simp [endsAtBranch, pml_self_append]
    rw [hvis] at hfuel hent
    rw [hends]
    obtain ⟨cs, val, rfl⟩ := (isBranch_iff n).mp hwf.2.1
    cases fuel with
    | zero => simp at hfuel
    | succ f =>
      have hres := resolveRef_childRef X hX D hD db _ (by simp) rn hrn
        (hent _ (List.mem_cons_of_mem _ (visited_self _ _)))
      simp only [verifyLoop, verifyStep, decodeNode_ext pb _ p (decodeCompact_compact _ _ _ hpb),
        pml_self_append, lt_self_iff_false, if_false, List.drop_left, hres]
      exact ih hwf.2.2 s rn hget (fun m hm => hent m (by simp [hm])) hrn f
        (by simpa using hfuel)
  | branch cs val ih =>
    obtain ⟨hs, hlen, rfl, hslot⟩ := Raw_branch_slot X cs val r hr
    cases ns with
    | nil =>
      rw [getLoop_branch_nil] at hget
      cases val with
      | none => simp at hget
      | some o =>
        simp only [Option.getD_some, Option.isSome_some, Prod.mk.injEq, and_true] at hget
        subst hget
        cases fuel with
        | zero => simp [visited] at hfuel
        | succ f =>
          by_cases ho : o = []
          · subst ho
            simp [verifyLoop, verifyStep, decodeNode_branch hs [] hlen, endsAtBranch]
          · simp [verifyLoop, verifyStep, decodeNode_branch hs o hlen, ho]
    | cons b rest =>
      rw [getLoop_branch_cons] at hget
      have hvis : visited (.branch cs val) (b :: rest) = .branch cs val :: visited (cs b) rest := by
        simp [visited]
      have hends : endsAtBranch (.branch cs val) (b :: rest) = endsAtBranch (cs b) rest := by
        simp [endsAtBranch]
      rw [hvis] at hfuel hent
      rw [hends]
      have hne : cs b ≠ .empty := by
        intro he
        rw [he, getLoop_empty] at hget
        simp at hget
      obtain ⟨rn, hrn⟩ := Raw_isSome X (cs b) (hwf.1 b) hne
      have hsl := hslot b
      simp only [isEmptyNode_eq_false _ hne, Bool.false_eq_true, if_false, hrn,
        Option.map_some', Option.some.injEq] at hsl
      cases fuel with
      | zero => simp at hfuel
      | succ f =>
        have hres := resolveRef_childRef X hX D hD db _ hne rn hrn
          (hent _ (List.mem_cons_of_mem _ (visited_self _ _)))
        simp only [verifyLoop, verifyStep, decodeNode_branch hs _ hlen, ← hsl, hres]
        exact ih b (hwf.1 b) rest rn hget (fun m hm => hent m (by simp [hm])) hrn f
          (by simpa using hfuel)

/-! ## The small instance decodes what it encodes -/

theorem takeWhile_replicate_one (n : Nat) (y : Bytes) :
    (List.replicate n (1 : Byte) ++ 0 :: y).takeWhile (fun x => decide (x = 1))
      = List.replicate n 1 := by
  induction n with
  | zero => simp [List.takeWhile]
  | succ k ih => simp [List.replicate_succ, List.takeWhile, ih]

mutual
theorem toyDecodeItem_encode : (a : RawItem) → (fuel : Nat) → (rest : Bytes) →
    (toyEncode a).length ≤ fuel → toyDecodeItem fuel (toyEncode a ++ rest) = some (a, rest)
  | .bytes b, 0, rest, h => by simp [toyEncode] at h
  | .bytes b, fuel + 1, rest, _ => by
    have htw := takeWhile_replicate_one b.length (b ++ rest)
    simp only [toyEncode, List.cons_append, List.append_assoc, toyDecodeItem, if_true, htw,
      List.length_replicate]
    have hdrop : (List.replicate b.length (1 : Byte) ++ 0 :: (b ++ rest)).drop b.length
        = 0 :: (b ++ rest) := by
      simp
    rw [hdrop]
    simp
  | .list l, 0, rest, h => by simp [toyEncode] at h
  | .list l, fuel + 1, rest, h => by
    have hlen : (toyEncodeList l).length ≤ fuel := by
      simp only [toyEncode, List.length_cons] at h
      omega
    simp [toyEncode, toyDecodeItem, toyDecodeList_encode l fuel rest hlen]
theorem toyDecodeList_encode : (l : List RawItem) → (fuel : Nat) → (rest : Bytes) →
    (toyEncodeList l).length ≤ fuel →
    toyDecodeList fuel (toyEncodeList l ++ rest) = some (l, rest)
  | [], 0, rest, h => by simp [toyEncodeList] at h
  | [], fuel + 1, rest, _ => by simp [toyEncodeList, toyDecodeList]
  | x :: xs, 0, rest, h => by simp [toyEncodeList] at h
  | x :: xs, fuel + 1, rest, h => by
    simp only [toyEncodeList, List.length_cons, List.length_append] at h
    have h1 : (toyEncode x).length ≤ fuel := by omega
    have h2 : (toyEncodeList xs).length ≤ fuel := by omega
    simp [toyEncodeList, toyDecodeList, toyDecodeItem_encode x fuel _ h1,
      toyDecodeList_encode xs fuel rest h2]
end

theorem toyDecode_encode (r : RawItem) : toyDecode (toyEncode r) = some r := by
  have := toyDecodeItem_encode r ((toyEncode r).length + 1) [] (by omega)
  simp only [List.append_nil] at this
  simp [toyDecode, this]

/-! ## `Prove` then `VerifyProof` -/

theorem VerifyProof_found (X : Externals) (hX : X.Faithful) (D : Bytes → Option RawItem)
    (hD : ∀ r, D (X.EncodeToBytes r) = some r) (db : ProofDB) (v : Bytes) (t : Trie)
    (hwf : WF t.root) (k d : Bytes) (hget : t.Get k = (v, true))
    (hent : ∀ n ∈ visited t.root (FromBytes k), HasEntry X db n) (hd : t.Hash X = some d)
    (fuel : Nat) (hfuel : (visited t.root (FromBytes k)).length ≤ fuel) :
    VerifyProof D fuel d k db
      = some (if v = [] ∧ endsAtBranch t.root (FromBytes k) = true then .error .KeyNotProven
          else .ok v) := by
  have hne : t.root ≠ .empty := by
    intro he
    simp [Trie.Get, he, getLoop_empty] at hget
  obtain ⟨r, hr⟩ := Raw_isSome X t.root hwf hne
  obtain ⟨d', s, hd', hs, hg⟩ := hent _ (visited_self _ _)
  rw [TrieHash_eq, hd'] at hd
  simp only [Option.some.injEq] at hd
  subst hd
  have hs' : s = X.EncodeToBytes (.list r) := by
    simp only [Serialize, isEmptyNode_eq_false _ hne, Bool.false_eq_true, if_false, hr,
      Option.map_some', Option.some.injEq] at hs
    exact hs.symm
  simp only [VerifyProof, fetchNode, hg, hs', hD]
  exact verifyLoop_found X hX D hD db v t.root hwf _ r hget hent hr fuel hfuel

/-- The verifier of section 4.4 on the proof of a present key: on a trie built by
`Put` calls, for a key `k` present with stored value `v`, `Prove(k)` returns a
store with found = true, and the verifier run on it from `Hash()` ends with the
value `v` (with a step count of at least the number of nodes on the path of
`k`), except when `v` is the empty byte string and the descent for `k` ends at
a branch; there it reads the empty last element of the branch as no value and
ends with `KeyNotProven`. -/
theorem verifier_after_prove (X : Externals) (hX : X.Faithful) (D : Bytes → Option RawItem)
    (hD : ∀ r, D (X.EncodeToBytes r) = some r) (ops : List (Bytes × Bytes)) (k v : Bytes) :
    ∃ t d, fromPuts ops = some t ∧ t.Hash X = some d ∧
      (t.Get k = (v, true) →
        ∃ db, t.Prove X k = some (some db, true) ∧
          ∀ fuel, (visited t.root (FromBytes k)).length ≤ fuel →
            (¬ (v = [] ∧ endsAtBranch t.root (FromBytes k) = true) →
              VerifyProof D fuel d k db = some (.ok v)) ∧
            (v = [] ∧ endsAtBranch t.root (FromBytes k) = true →
              VerifyProof D fuel d k db = some (.error .KeyNotProven))) := by
  have hwf := WF_putsNode (nibbleOps ops)
  obtain ⟨d, hd⟩ := Hash_isSome X _ hwf
  refine ⟨⟨putsNode (nibbleOps ops)⟩, d, fromPuts_eq ops, hd, ?_⟩
  intro hget
  obtain ⟨p, hp⟩ := proveLoop_found X _ hwf (FromBytes k) NewProofDB
  have hfound : (getLoop (putsNode (nibbleOps ops)) (FromBytes k)).2 = true := by
    have := congrArg Prod.snd hget
    simpa [Trie.Get] using this
  rw [hfound] at hp
  cases p with
  | none =>
    have h1 := proveLoop_nil X _ _ _ _ hp
    rw [found_not_stopsShort _ _ hfound] at h1
    exact absurd h1 (by simp)
  | some db =>
    refine ⟨db, hp, fun fuel hfuel => ?_⟩
    have hv := VerifyProof_found X hX D hD db v ⟨putsNode (nibbleOps ops)⟩ hwf k d hget
      (proveLoop_store X hX.keccak_injective _ _ _ _ _ hp).2.1 hd fuel hfuel
    constructor
    · intro hexc
      rw [hv, if_neg hexc]
    · intro hexc
      rw [hv, if_pos hexc]

set_option maxRecDepth 100000 in
/-- The verifier of section 4.4 at an empty value held by a branch: the key is
found by `Get` and `Prove`, the verifier ends with `KeyNotProven`, and
`trie.VerifyProof` returns `nil, nil`, the empty value without error. -/
theorem verifier_empty_branch_value :
    toyExternals.Faithful ∧ (∀ r, toyDecode (toyExternals.EncodeToBytes r) = some r) ∧
    ∃ t d db, fromPuts [([0x12, 0x34], [1]), ([0x12, 0x56], [2]), ([0x12], [])] = some t ∧
      t.Get [0x12] = ([], true) ∧ t.Hash toyExternals = some d ∧
      t.Prove toyExternals [0x12] = some (some db, true) ∧
      (∀ fuel, VerifyProof toyDecode (fuel + 2) d [0x12] db = some (.error .KeyNotProven)) ∧
      ∀ fuel, Trie.VerifyProof toyDecode (fuel + 2) d [0x12] db = some ([], none) := by
  refine ⟨toyExternals_faithful, toyDecode_encode, _, _, _, rfl, rfl, rfl, rfl, ?_, ?_⟩
  · intro fuel
    rfl
  · intro fuel
    rfl

/-- C5: on a trie built by `Put` calls, for every key `k` present with stored
value `v`, `Prove(k)` returns a store with found = true, and
`VerifyProof(Hash(), k, proof)` on that store returns `v` and no error (with a
step count of at least the number of nodes on the path of `k`).  The hash
function and the encoding are injective and the verifier decodes what the
encoding produced. -/
theorem C5_prove_then_verify (X : Externals) (hX : X.Faithful) (D : Bytes → Option RawItem)
    (hD : ∀ r, D (X.EncodeToBytes r) = some r) (ops : List (Bytes × Bytes)) (k v : Bytes) :
    ∃ t d, fromPuts ops = some t ∧ t.Hash X = some d ∧
      (t.Get k = (v, true) →
        ∃ db, t.Prove X k = some (some db, true) ∧
          ∀ fuel, (visited t.root (FromBytes k)).length ≤ fuel →
            Trie.VerifyProof D fuel d k db = some (v, none)) := by
  obtain ⟨t, d, h1, h2, h3⟩ := verifier_after_prove X hX D hD ops k v
  refine ⟨t, d, h1, h2, fun hget => ?_⟩
  obtain ⟨db, hp, hv⟩ := h3 hget
  refine ⟨db, hp, fun fuel hfuel => ?_⟩
  by_cases hexc : v = [] ∧ endsAtBranch t.root (FromBytes k) = true
  · simp only [Trie.VerifyProof, (hv fuel hfuel).2 hexc, Option.map_some', hexc.1]
  · simp only [Trie.VerifyProof, (hv fuel hfuel).1 hexc, Option.map_some']

theorem C5_prove_then_verify_witness :
    toyExternals.Faithful ∧ (∀ r, toyDecode (toyExternals.EncodeToBytes r) = some r) ∧
    ∃ t d db, fromPuts [([1, 2, 3], [104]), ([1, 2, 3, 4, 5], [119])] = some t ∧
      t.Hash toyExternals = some d ∧ t.Get [1, 2, 3] = ([104], true) ∧
      t.Prove toyExternals [1, 2, 3] = some (some db, true) ∧
      ∀ fuel, 2 ≤ fuel → Trie.VerifyProof toyDecode fuel d [1, 2, 3] db = some ([104], none) := by
  obtain ⟨t, d, h1, h2, h3⟩ :=
    C5_prove_then_verify toyExternals toyExternals_faithful toyDecode toyDecode_encode
      [([1, 2, 3], [104]), ([1, 2, 3, 4, 5], [119])] [1, 2, 3] [104]
  have ht : t = ⟨putNode (.leaf (FromBytes [1, 2, 3]) [104]) (FromBytes [1, 2, 3, 4, 5]) [119]⟩ :=
    Option.some.inj (h1.symm.trans rfl)
  subst ht
  have hget : Trie.Get ⟨putNode (.leaf (FromBytes [1, 2, 3]) [104]) (FromBytes [1, 2, 3, 4, 5])
      [119]⟩ [1, 2, 3] = ([104], true) := by decide
  obtain ⟨db, hp, hv⟩ := h3 hget
  exact ⟨toyExternals_faithful, toyDecode_encode, _, d, db, h1, h2, hget, hp, hv⟩

/-! ## A first `Put`, the new trie, the raw form of an extension -/

theorem FromBytes_vals (k : Bytes) :
    (FromBytes k).map Fin.val = (k.map fun b => [b.val / 16, b.val % 16]).flatten := by
  induction k with
  | nil => rfl
  | cons b bs ih => simp [FromBytes, FromByte, ih]

/-- C12: one `Put(k, v)` on a new trie leaves as root the leaf whose path is the
nibbles of `k`, two per byte, high nibble first, and whose value is `v`; this is
the node `NewLeafNodeFromBytes(k, v)`, and `Hash()` of the trie is the (defined)
`Hash()` of that node. -/
theorem C12_first_put (X : Externals) (k v : Bytes) :
    ∃ t d, NewTrie.Put k v = some t ∧ t.root = .leaf (FromBytes k) v ∧
      (FromBytes k).map Fin.val = (k.map fun b => [b.val / 16, b.val % 16]).flatten ∧
      t.root = NewLeafNodeFromBytes k v ∧
      t.Hash X = some d ∧ Node.Hash X (NewLeafNodeFromBytes k v) = some d := by
  obtain ⟨d, hd⟩ := Hash_isSome X (.leaf (FromBytes k) v) trivial
  exact ⟨⟨.leaf (FromBytes k) v⟩, d, rfl, rfl, FromBytes_vals k, rfl, hd, hd⟩

/-- C13: `Hash()` of a new trie is the constant `EmptyNodeHash`, which is also
what `node.Hash` returns for the nil node; the constant is the 32 bytes of the
hex string in the sources. -/
theorem C13_empty_hash (X : Externals) :
    NewTrie.Hash X = some EmptyNodeHash ∧ Hash X .empty = some EmptyNodeHash ∧
      EmptyNodeHash.length = 32 ∧
      hexKey EmptyNodeHash
        = "56e81f171bcc55a6ff8345e692c0f86e5b48e01b996cadc001622fb5e363b421" :=
  ⟨rfl, rfl, rfl, by decide⟩

/-- C14: `Raw()` of an extension with path `p` and child `c` is the 2-element
structure of `ToBytes(ToPrefixed(p, false))`, which is defined, and of
`c.Raw()` when `len(Serialize(c)) < 32`, of `c.Hash()` when that length is 32
or more; it panics exactly when the part it calls on `c` panics (a nil `c`). -/
theorem C14_extension_raw (X : Externals) (p : List Nibble) (c : Node) :
    ∃ pb, ToBytes (ToPrefixed p false) = some pb ∧
      (Node.Raw X (.ext p c) =
        (Serialize X c).bind fun ser =>
          if ser.length < 32 then (Node.Raw X c).map fun r => [.bytes pb, .list r]
          else (Node.Hash X c).map fun h => [.bytes pb, .bytes h]) ∧
      ∀ ser, Serialize X c = some ser → ser.length = 32 →
        Node.Raw X (.ext p c) = (Node.Hash X c).map fun h => [.bytes pb, .bytes h] := by
  obtain ⟨pb, hpb⟩ := ToBytes_ToPrefixed p false
  suffices hmain : Node.Raw X (.ext p c) =
      (Serialize X c).bind fun ser =>
        if ser.length < 32 then (Node.Raw X c).map fun r => [.bytes pb, .list r]
        else (Node.Hash X c).map fun h => [.bytes pb, .bytes h] by
    refine ⟨pb, hpb, hmain, fun ser hser hlen => ?_⟩
    rw [hmain, hser]
    simp [hlen]
  rw [Node.Raw, hpb]
  by_cases hc : c = .empty
  · subst hc
    simp [Node.Raw, Serialize, Node.Hash, IsEmptyNode]
  · cases hr : Node.Raw X c with
    | none => simp [Serialize, isEmptyNode_eq_false c hc, hr]
    | some r =>
      simp only [Serialize, Node.Hash, isEmptyNode_eq_false c hc, hr, Option.map_some',
        Bool.false_eq_true, if_false, Option.some_bind, childRef]
      by_cases hlen : (X.EncodeToBytes (.list r)).length < 32
      · have : ¬ (X.EncodeToBytes (.list r)).length ≥ 32 := by omega
        simp [hlen, this]
      · have : (X.EncodeToBytes (.list r)).length ≥ 32 := by omega
        simp [hlen, this]

/-! ## The proof store: `Put`, `Get`, `Has`, `Delete` -/

theorem lookup_filter_self (l : List (String × Bytes)) (k : String) :
    (l.filter fun e => e.1 ≠ k).lookup k = none := by
  induction l with
  | nil => rfl
  | cons e rest ih =>
    obtain ⟨ek, ev⟩ := e
    by_cases hek : ek = k
    · subst hek
      simpa [List.filter] using ih
    · have hbeq : (k == ek) = false := by simpa using fun h : k = ek => hek h.symm
      simpa [List.filter, List.lookup, hek, hbeq] using ih

/-- C15: in any state of a `ProofDB`, after `Put(k, v)`, `Get(k)` returns `v`
without error and `Has(k)` is true, and for every other key `k'` the results of
`Get(k')` and `Has(k')` are what they were; two distinct byte strings never have
the same key string. -/
theorem C15_proofdb_put (w : ProofDB) (k v : Bytes) :
    (w.Put k v).Get k = some v ∧ (w.Put k v).Has k = true ∧
      (∀ k', k' ≠ k → (w.Put k v).Get k' = w.Get k' ∧ (w.Put k v).Has k' = w.Has k') ∧
      ∀ k1 k2 : Bytes, k1 ≠ k2 → hexKey k1 ≠ hexKey k2 := by
  refine ⟨ProofDB_Get_Put_same w k v, ?_, fun k' hk => ⟨ProofDB_Get_Put_other w k v k' hk, ?_⟩,
    fun k1 k2 hne h => hne (hexKey_injective h)⟩
  · have := ProofDB_Get_Put_same w k v
    simp only [ProofDB.Get] at this
    simp [ProofDB.Has, this]
  · have := ProofDB_Get_Put_other w k v k' hk
    simp only [ProofDB.Get] at this
    simp [ProofDB.Has, this]

theorem ProofDB_Get_Delete_same (w : ProofDB) (k : Bytes) : (w.Delete k).Get k = none := by
  simp only [ProofDB.Delete, ProofDB.Get]
  exact lookup_filter_self w.kv _

theorem ProofDB_Get_Delete_other (w : ProofDB) (k k' : Bytes) (h : k' ≠ k) :
    (w.Delete k).Get k' = w.Get k' := by
  have hne : hexKey k' ≠ hexKey k := fun e => h (hexKey_injective e)
  simp only [ProofDB.Delete, ProofDB.Get]
  exact lookup_filter_ne w.kv _ _ hne

/-- C16: in any state of a `ProofDB`, `Get(k)` returns the error "not found" if
and only if `Has(k)` is false; so it is for every key of a new `ProofDB` and for
`k` right after `Delete(k)`, and `Delete(k)` leaves `Get` and `Has` of every other
key as they were. -/
theorem C16_proofdb_get_has_delete (w : ProofDB) (k : Bytes) :
    (w.Get k = none ↔ w.Has k = false) ∧
      (∀ k0, NewProofDB.Get k0 = none ∧ NewProofDB.Has k0 = false) ∧
      ((w.Delete k).Get k = none ∧ (w.Delete k).Has k = false) ∧
      ∀ k', k' ≠ k → (w.Delete k).Get k' = w.Get k' ∧ (w.Delete k).Has k' = w.Has k' := by
  refine ⟨?_, fun k0 => ⟨rfl, rfl⟩, ⟨ProofDB_Get_Delete_same w k, ?_⟩, fun k' hk =>
    ⟨ProofDB_Get_Delete_other w k k' hk, ?_⟩⟩
  · simp [ProofDB.Get, ProofDB.Has]
  · have := ProofDB_Get_Delete_same w k
    simp only [ProofDB.Get] at this
    simp [ProofDB.Has, this]
  · have := ProofDB_Get_Delete_other w k k' hk
    simp only [ProofDB.Get] at this
    simp [ProofDB.Has, this]

/-! ## The node installed when `Put` stops at a leaf or splits an extension -/

theorem wrapExt_eq_take (c rest : List Nibble) (B : Node) :
    wrapExt c B = if c.length = 0 then B else .ext ((c ++ rest).take c.length) B := by
  unfold wrapExt
  cases c with
  | nil => simp
  | cons x xs => simp

theorem getElem_at_length (c : List Nibble) (a : Nibble) (r : List Nibble) (m : Nat)
    (hm : m = c.length) (h : m < (c ++ a :: r).length) : (c ++ a :: r)[m] = a := by
  subst hm
  exact getElem_append_cons c a r h

/-- C17: when the loop of `Put` stops at a leaf with path `p` and value `o`, with
remaining nibbles `r`, value `v` and `m = PrefixMatchedLen(p, r)`: if `m = len(p) =
len(r)` the leaf is replaced by `Leaf{p, v}`; otherwise the node installed is `B`
when `m = 0` and `Extension{p[:m], B}` when `m > 0`, where `B` is a branch whose
value is `o` if `m = len(p)`, `v` if `m = len(r)` and absent otherwise, whose slot
`p[m]` holds `Leaf{p[m+1:], o}` when `m < len(p)`, whose slot `r[m]` holds
`Leaf{r[m+1:], v}` when `m < len(r)`, and whose other slots are absent. -/
theorem C17_leaf_split (p : List Nibble) (o : Bytes) (r : List Nibble) (v : Bytes) :
    (PrefixMatchedLen p r = p.length ∧ PrefixMatchedLen p r = r.length →
      putLoop (.leaf p o) r v = some (.leaf p v)) ∧
    (¬ (PrefixMatchedLen p r = p.length ∧ PrefixMatchedLen p r = r.length) →
      ∃ cs val,
        putLoop (.leaf p o) r v
          = some (if PrefixMatchedLen p r = 0 then .branch cs val
              else .ext (p.take (PrefixMatchedLen p r)) (.branch cs val)) ∧
        val = (if PrefixMatchedLen p r = p.length then some o
          else if PrefixMatchedLen p r = r.length then some v else none) ∧
        (∀ h : PrefixMatchedLen p r < p.length,
          cs p[PrefixMatchedLen p r] = .leaf (p.drop (PrefixMatchedLen p r + 1)) o) ∧
        (∀ h : PrefixMatchedLen p r < r.length,
          cs r[PrefixMatchedLen p r] = .leaf (r.drop (PrefixMatchedLen p r + 1)) v) ∧
        ∀ i, (∀ h : PrefixMatchedLen p r < p.length, i ≠ p[PrefixMatchedLen p r]) →
          (∀ h : PrefixMatchedLen p r < r.length, i ≠ r[PrefixMatchedLen p r]) →
          cs i = .empty) := by
  constructor
  · intro h
    have hrp := (pml_eq_both_iff p r).mp h
    subst hrp
    simp [putLoop, putAtLeaf_same]
  · intro hne
    rcases leaf_cases p r with rfl | ⟨b, nr, rfl⟩ | ⟨a, pr, rfl⟩ | ⟨c, a, pr, b, nr, rfl, rfl, hab⟩
    · exact absurd ((pml_eq_both_iff r r).mpr rfl) hne
    · refine ⟨Function.update noBranches b (.leaf nr v), some o, ?_, ?_, ?_, ?_, ?_⟩
      · simp only [putLoop, putAtLeaf_longer, pml_self_append]
        rw [wrapExt_eq_take p []]
        simp
      · simp [pml_self_append]
      · intro h
        simp [pml_self_append] at h
      · intro h
        rw [getElem_at_length p b nr _ (pml_self_append p (b :: nr)) h]
        simp [pml_self_append, drop_succ_append_cons]
      · intro i _ h2
        have hib : i ≠ b := by
          have := h2 (by simp [pml_self_append])
          simpa [pml_self_append, getElem_append_cons] using this
        simp [Function.update_noteq hib]
    · refine ⟨Function.update noBranches a (.leaf pr o), some v, ?_, ?_, ?_, ?_, ?_⟩
      · simp only [putLoop, putAtLeaf_shorter, pml_append_self]
        rw [wrapExt_eq_take r (a :: pr)]
      · simp [pml_append_self]
      · intro h
        rw [getElem_at_length r a pr _ (pml_append_self r (a :: pr)) h]
        simp [pml_append_self, drop_succ_append_cons]
      · intro h
        simp [pml_append_self] at h
      · intro i h1 _
        have hia : i ≠ a := by
          have := h1 (by simp [pml_append_self])
          simpa [pml_append_self, getElem_append_cons] using this
        simp [Function.update_noteq hia]
    · refine ⟨Function.update (Function.update noBranches a (.leaf pr o)) b (.leaf nr v), none,
        ?_, ?_, ?_, ?_, ?_⟩
      · simp only [putLoop, putAtLeaf_fork _ _ _ _ _ _ _ hab, pml_fork _ _ _ _ _ hab]
        rw [wrapExt_eq_take c (a :: pr)]
      · simp [pml_fork _ _ _ _ _ hab]
      · intro h
        rw [getElem_at_length c a pr _ (pml_fork c a b pr nr hab) h]
        simp [pml_fork _ _ _ _ _ hab, drop_succ_append_cons, Function.update_noteq hab]
      · intro h
        rw [getElem_at_length c b nr _ (pml_fork c a b pr nr hab) h]
        simp [pml_fork _ _ _ _ _ hab, drop_succ_append_cons]
      · intro i h1 h2
        have hia : i ≠ a := by
          have := h1 (by simp [pml_fork _ _ _ _ _ hab])
          simpa [pml_fork _ _ _ _ _ hab, getElem_append_cons] using this
        have hib : i ≠ b := by
          have := h2 (by simp [pml_fork _ _ _ _ _ hab])
          simpa [pml_fork _ _ _ _ _ hab, getElem_append_cons] using this
        simp [Function.update_noteq hib, Function.update_noteq hia]

theorem extRest_eq_drop (c : List Nibble) (a : Nibble) (pr : List Nibble) (n : Node) :
    extRest pr n = if (c ++ a :: pr).drop (c.length + 1) = [] then n
      else .ext ((c ++ a :: pr).drop (c.length + 1)) n := by
  simp [extRest, drop_succ_append_cons]

/-- C18: when `Put` reaches an extension with path `p` and child `n`, with remaining
nibbles `r`, value `v` and `m = PrefixMatchedLen(p, r)`: if `m < len(p)` the node
installed is `B` when `m = 0` and `Extension{p[:m], B}` when `m > 0`, where `B` is a
branch whose slot `p[m]` holds `n` itself when `p[m+1:]` is empty and
`Extension{p[m+1:], n}` otherwise, which has `Leaf{r[m+1:], v}` at slot `r[m]` when
`m < len(r)` and value `v` when `m = len(r)` (no value otherwise), and whose other
slots are absent; if `m = len(p)` the extension and its path are kept and the `Put`
continues in `n` with `r[m:]`. -/
theorem C18_extension_split (p : List Nibble) (n : Node) (r : List Nibble) (v : Bytes) :
    (PrefixMatchedLen p r < p.length →
      ∃ cs val,
        putLoop (.ext p n) r v
          = some (if PrefixMatchedLen p r = 0 then .branch cs val
              else .ext (p.take (PrefixMatchedLen p r)) (.branch cs val)) ∧
        (∀ h : PrefixMatchedLen p r < p.length,
          cs p[PrefixMatchedLen p r] =
            if p.drop (PrefixMatchedLen p r + 1) = [] then n
            else .ext (p.drop (PrefixMatchedLen p r + 1)) n) ∧
        (∀ h : PrefixMatchedLen p r < r.length,
          cs r[PrefixMatchedLen p r] = .leaf (r.drop (PrefixMatchedLen p r + 1)) v) ∧
        val = (if PrefixMatchedLen p r = r.length then some v else none) ∧
        ∀ i, (∀ h : PrefixMatchedLen p r < p.length, i ≠ p[PrefixMatchedLen p r]) →
          (∀ h : PrefixMatchedLen p r < r.length, i ≠ r[PrefixMatchedLen p r]) →
          cs i = .empty) ∧
    (PrefixMatchedLen p r = p.length →
      putLoop (.ext p n) r v
        = (putLoop n (r.drop (PrefixMatchedLen p r)) v).map fun child => .ext p child) := by
  rcases ext_cases p r with ⟨s, rfl⟩ | ⟨a, pr, rfl⟩ | ⟨c, a, pr, b, nr, rfl, rfl, hab⟩
  · constructor
    · intro h
      simp [pml_self_append] at h
    · intro _
      rw [putLoop_ext_full, pml_self_append]
      simp
  · constructor
    · intro _
      refine ⟨Function.update noBranches a (extRest pr n), some v, ?_, ?_, ?_, ?_, ?_⟩
      · rw [putLoop_ext_end, pml_append_self, wrapExt_eq_take r (a :: pr)]
      · intro h
        rw [getElem_at_length r a pr _ (pml_append_self r (a :: pr)) h, pml_append_self,
          ← extRest_eq_drop r a pr n]
        simp
      · intro h
        simp [pml_append_self] at h
      · simp [pml_append_self]
      · intro i h1 _
        have hia : i ≠ a := by
          have := h1 (by simp [pml_append_self])
          rwa [getElem_at_length r a pr _ (pml_append_self r (a :: pr))] at this
        simp [Function.update_noteq hia]
    · intro h
      simp [pml_append_self] at h
  · constructor
    · intro _
      refine ⟨Function.update (Function.update noBranches a (extRest pr n)) b (.leaf nr v), none,
        ?_, ?_, ?_, ?_, ?_⟩
      · rw [putLoop_ext_fork _ _ _ _ _ _ _ hab, pml_fork _ _ _ _ _ hab,
          wrapExt_eq_take c (a :: pr)]
      · intro h
        rw [getElem_at_length c a pr _ (pml_fork c a b pr nr hab) h, pml_fork _ _ _ _ _ hab,
          ← extRest_eq_drop c a pr n]
        simp [Function.update_noteq hab]
      · intro h
        rw [getElem_at_length c b nr _ (pml_fork c a b pr nr hab) h]
        simp [pml_fork _ _ _ _ _ hab, drop_succ_append_cons]
      · simp [pml_fork _ _ _ _ _ hab]
      · intro i h1 h2
        have hia : i ≠ a := by
          have := h1 (by simp [pml_fork _ _ _ _ _ hab])
          rwa [getElem_at_length c a pr _ (pml_fork c a b pr nr hab)] at this
        have hib : i ≠ b := by
          have := h2 (by simp [pml_fork _ _ _ _ _ hab])
          rwa [getElem_at_length c b nr _ (pml_fork c a b pr nr hab)] at this
        simp [Function.update_noteq hib, Function.update_noteq hia]
    · intro h
      simp [pml_fork _ _ _ _ _ hab] at h

/-! ## Every branch of a trie built by `Put` has two occupied positions -/

theorem WF_of_reachable (t x : Node) (h : Reachable t x) (ht : WF t) : WF x := by
  induction h with
  | root t => exact ht
  | next p n x _ ih => exact ih ht.2.2
  | slot cs val i x _ ih => exact ih (ht.1 i)

theorem occupiedSlots_pos (cs : Nibble → Node) (i : Nibble) (hi : cs i ≠ .empty) :
    0 < occupiedSlots cs := by
  unfold occupiedSlots
  rw [Finset.card_pos]
  exact ⟨i, by simp [isEmptyNode_eq_false (cs i) hi]⟩

theorem occupiedSlots_two (cs : Nibble → Node) (i j : Nibble) (hij : i ≠ j)
    (hi : cs i ≠ .empty) (hj : cs j ≠ .empty) : 1 < occupiedSlots cs := by
  unfold occupiedSlots
  rw [Finset.one_lt_card]
  exact ⟨i, by simp [isEmptyNode_eq_false (cs i) hi], j,
    by simp [isEmptyNode_eq_false (cs j) hj], hij⟩

theorem occupied_of_TwoOccupied (cs : Nibble → Node) (val : Option Bytes)
    (h : TwoOccupied cs val) :
    ¬ (val = none ∧ occupiedSlots cs = 1) ∧ 2 ≤ occupied cs val := by
  rcases h with ⟨hv, i, hi⟩ | ⟨i, j, hij, hi, hj⟩
  · have hpos := occupiedSlots_pos cs i hi
    constructor
    · rintro ⟨hnone, _⟩
      simp [hnone] at hv
    · simp only [occupied, hv, if_true]
      omega
  · have htwo := occupiedSlots_two cs i j hij hi hj
    constructor
    · rintro ⟨_, hone⟩
      omega
    · unfold occupied
      omega

/-- C20: in every trie obtained from the empty trie by any sequence of `Put`
calls, no branch of the tree has an absent value together with exactly one
non-absent child: every such branch has at least two occupied positions among
its 16 child slots and its value. -/
theorem C20_branch_two_occupied (ops : List (Bytes × Bytes)) :
    ∃ t, fromPuts ops = some t ∧
      ∀ cs val, Reachable t.root (.branch cs val) →
        ¬ (val = none ∧ occupiedSlots cs = 1) ∧ 2 ≤ occupied cs val := by
  refine ⟨_, fromPuts_eq ops, fun cs val hr => ?_⟩
  have hwf : WF (.branch cs val) := WF_of_reachable _ _ hr (WF_putsNode (nibbleOps ops))
  exact occupied_of_TwoOccupied cs val hwf.2

/-! ## The store returned by `Prove` holds the visited nodes and nothing else -/

theorem mem_Put (db : ProofDB) (d s : Bytes) (e : String × Bytes) (h : e ∈ (db.Put d s).kv) :
    e = (hexKey d, s) ∨ e ∈ db.kv := by
  simp only [ProofDB.Put, List.mem_cons, List.mem_filter] at h
  rcases h with h | ⟨h, _⟩
  · exact Or.inl h
  · exact Or.inr h

theorem lookup_isSome_mem (l : List (String × Bytes)) (k : String)
    (h : (l.lookup k).isSome = true) : ∃ v, (k, v) ∈ l := by
  induction l with
  | nil => simp at h
  | cons e rest ih =>
    obtain ⟨ek, ev⟩ := e
    by_cases hk : k = ek
    · subst hk
      exact ⟨ev, by simp⟩
    · have hbeq : (k == ek) = false := by simpa using hk
      simp only [List.lookup, hbeq] at h
      obtain ⟨v, hv⟩ := ih h
      exact ⟨v, List.mem_cons_of_mem _ hv⟩

/-- An entry of the store returned by the loop of `Prove` was in the store the
loop started with, or is the entry `Hash(n) -> Serialize(n)` of a visited node. -/
theorem proveLoop_entries (X : Externals) (t : Node) (ns : List Nibble) (db db' : ProofDB)
    (f : Bool) (h : proveLoop X t ns db = some (some db', f)) (e : String × Bytes)
    (he : e ∈ db'.kv) :
    e ∈ db.kv ∨ ∃ n ∈ visited t ns, ∃ d s, Hash X n = some d ∧ Serialize X n = some s ∧
      e = (hexKey d, s) := by
  induction t generalizing ns db with
  | empty =>
    cases hr : recordNode X db .empty with
    | none => simp [proveLoop, hr] at h
    | some db1 => simp [proveLoop, hr] at h
  | leaf p v =>
    cases hr : recordNode X db (.leaf p v) with
    | none => simp [proveLoop, hr] at h
    | some db1 =>
      simp only [proveLoop, hr, Option.some_bind] at h
      split at h
      · simp at h
      · simp only [Option.some.injEq, Prod.mk.injEq] at h
        obtain ⟨h1, _⟩ := h
        subst h1
        obtain ⟨d, s, hd, hs, rfl⟩ := recordNode_eq_some X db _ _ hr
        rcases mem_Put db d s e he with h1 | h1
        · exact Or.inr ⟨_, visited_self _ _, d, s, hd, hs, h1⟩
        · exact Or.inl h1
  | ext p n ih =>
    cases hr : recordNode X db (.ext p n) with
    | none => simp [proveLoop, hr] at h
    | some db1 =>
      simp only [proveLoop, hr, Option.some_bind] at h
      obtain ⟨d, s, hd, hs, rfl⟩ := recordNode_eq_some X db _ _ hr
      split at h
      · simp at h
      · rename_i hc
        rcases ih _ _ h with h1 | ⟨m, hm, h1⟩
        · rcases mem_Put db d s e h1 with h2 | h2
          · exact Or.inr ⟨_, visited_self _ _, d, s, hd, hs, h2⟩
          · exact Or.inl h2
        · refine Or.inr ⟨m, ?_, h1⟩
          simp only [visited, hc, if_false, List.mem_cons]
          exact Or.inr hm
  | branch cs val ih =>
    cases hr : recordNode X db (.branch cs val) with
    | none => cases ns <;> simp [proveLoop, hr] at h
    | some db1 =>
      obtain ⟨d, s, hd, hs, rfl⟩ := recordNode_eq_some X db _ _ hr
      cases ns with
      | nil =>
        simp only [proveLoop, hr, Option.some_bind, Option.some.injEq, Prod.mk.injEq] at h
        obtain ⟨h1, _⟩ := h
        subst h1
        rcases mem_Put db d s e he with h1 | h1
        · exact Or.inr ⟨_, visited_self _ _, d, s, hd, hs, h1⟩
        · exact Or.inl h1
      | cons b rest =>
        simp only [proveLoop, hr, Option.some_bind] at h
        rcases ih b _ _ h with h1 | ⟨m, hm, h1⟩
        · rcases mem_Put db d s e h1 with h2 | h2
          · exact Or.inr ⟨_, visited_self _ _, d, s, hd, hs, h2⟩
          · exact Or.inl h2
        · refine Or.inr ⟨m, ?_, h1⟩
          simp only [visited, List.mem_cons]
          exact Or.inr hm

/-- A key of the store returned by `Prove` is the hash of a visited node. -/
theorem Prove_has (X : Externals) (t : Trie) (k : Bytes) (db : ProofDB) (f : Bool)
    (h : t.Prove X k = some (some db, f)) (d : Bytes) (hd : db.Has d = true) :
    ∃ n ∈ visited t.root (FromBytes k), Hash X n = some d := by
  obtain ⟨v, hv⟩ := lookup_isSome_mem db.kv (hexKey d) hd
  rcases proveLoop_entries X _ _ _ _ _ h _ hv with h1 | ⟨n, hn, d', s, hd', _, he⟩
  · simp [NewProofDB] at h1
  · have : hexKey d = hexKey d' := (Prod.mk.inj he).1
    rw [hexKey_injective this]
    exact ⟨n, hn, hd'⟩

/-- C19: for every trie obtained by a sequence of `Put` calls and every key `k`
for which `Prove(k)` reports found = true, the returned store holds exactly the
nodes visited on the lookup path of `k` from the root: for each such node `n`
it maps `Hash(n)` to `Serialize(n)` (so it has an entry under the root hash of
the trie), each of its entries is the entry `Hash(n) -> Serialize(n)` of a
visited node `n`, and it has no entry under a hash that is not the hash of a
visited node; the hash function being collision-free. -/
theorem C19_prove_store_exact (X : Externals) (hinj : Function.Injective X.Keccak256)
    (ops : List (Bytes × Bytes)) (k : Bytes) :
    ∃ t, fromPuts ops = some t ∧ ∀ db, t.Prove X k = some (some db, true) →
      (∀ n ∈ visited t.root (FromBytes k), HasEntry X db n) ∧
      (∃ h, t.Hash X = some h ∧ db.Has h = true) ∧
      (∀ e ∈ db.kv, ∃ n ∈ visited t.root (FromBytes k), ∃ d s,
        Hash X n = some d ∧ Serialize X n = some s ∧ e = (hexKey d, s)) ∧
      ∀ d, (∀ n ∈ visited t.root (FromBytes k), Hash X n ≠ some d) →
        db.Has d = false ∧ db.Get d = none := by
  refine ⟨⟨putsNode (nibbleOps ops)⟩, fromPuts_eq ops, fun db hp => ?_⟩
  have hent := (proveLoop_store X hinj _ _ _ _ _ hp).2.1
  refine ⟨hent, ?_, ?_, ?_⟩
  · obtain ⟨d, s, hd, _, hg⟩ := hent _ (visited_self _ _)
    refine ⟨d, hd, ?_⟩
    simp only [ProofDB.Get] at hg
    simp [ProofDB.Has, hg]
  · intro e he
    rcases proveLoop_entries X _ _ _ _ _ hp e he with h1 | h1
    · simp [NewProofDB] at h1
    · exact h1
  · intro d hd
    have hhas : db.Has d = false := by
      by_contra hc
      obtain ⟨n, hn, hnd⟩ := Prove_has X _ k db true hp d (by simpa using hc)
      exact hd n hn hnd
    refine ⟨hhas, ?_⟩
    simp only [ProofDB.Has] at hhas
    simpa [ProofDB.Get] using hhas

theorem C19_prove_store_exact_witness :
    Function.Injective toyExternals.Keccak256 ∧
    ∃ t db, fromPuts [([1, 2, 3], [104]), ([1, 2, 3, 4, 5], [119])] = some t ∧
      t.Prove toyExternals [1, 2, 3, 4, 5] = some (some db, true) ∧
      (visited t.root (FromBytes [1, 2, 3, 4, 5])).length = 3 ∧ db.kv.length = 3 ∧
      (∀ n ∈ visited t.root (FromBytes [1, 2, 3, 4, 5]), HasEntry toyExternals db n) ∧
      ∀ e ∈ db.kv, ∃ n ∈ visited t.root (FromBytes [1, 2, 3, 4, 5]), ∃ d s,
        Hash toyExternals n = some d ∧ Serialize toyExternals n = some s ∧
          e = (hexKey d, s) := by
  obtain ⟨t, h1, h2⟩ :=
    C19_prove_store_exact toyExternals toyKeccak256_injective
      [([1, 2, 3], [104]), ([1, 2, 3, 4, 5], [119])] [1, 2, 3, 4, 5]
  have ht : t = ⟨putNode (.leaf (FromBytes [1, 2, 3]) [104]) (FromBytes [1, 2, 3, 4, 5]) [119]⟩ :=
    Option.some.inj (h1.symm.trans rfl)
  subst ht
  obtain ⟨h3, _, h5, _⟩ := h2 _ rfl
  exact ⟨toyKeccak256_injective, _, _, h1, rfl, by decide, by decide, h3, h5⟩

/-! ## A proof made after a further `Put`, checked against the earlier root hash -/

/-- C11 (amended): for every trie built by `Put` calls, with `h` its `Hash()`, a
further `Put(k1, v1)` and every key `k` for which `Prove(k)` on the new trie
returns a store: when `h` is not the hash of a node visited on the lookup path
of `k` in the new trie, `VerifyProof(h, k, proof)` returns the error
`ProofIncomplete`, whatever the step count. -/
theorem C11_stale_root (X : Externals) (D : Bytes → Option RawItem)
    (ops : List (Bytes × Bytes)) (k1 v1 k : Bytes) :
    ∃ t h t', fromPuts ops = some t ∧ t.Hash X = some h ∧ t.Put k1 v1 = some t' ∧
      ∀ db f, t'.Prove X k = some (some db, f) →
        (∀ n ∈ visited t'.root (FromBytes k), Hash X n ≠ some h) →
        ∀ fuel, VerifyProof D fuel h k db = some (.error .ProofIncomplete) := by
  obtain ⟨h, hh⟩ := Hash_isSome X _ (WF_putsNode (nibbleOps ops))
  refine ⟨⟨putsNode (nibbleOps ops)⟩, h, _, fromPuts_eq ops, hh, Put_eq _ k1 v1, ?_⟩
  intro db f hp hn fuel
  have hhas : db.Has h = false := by
    by_contra hc
    obtain ⟨n, hmem, hnd⟩ := Prove_has X _ k db f hp h (by simpa using hc)
    exact hn n hmem hnd
  have hget : db.Get h = none := by
    simp only [ProofDB.Has] at hhas
    simpa [ProofDB.Get] using hhas
  simp [VerifyProof, fetchNode, hget]

set_option maxRecDepth 100000 in
theorem C11_stale_root_witness :
    ∃ t h t' db, fromPuts [([1, 2, 3], [104]), ([1, 2, 3, 4, 5], [119])] = some t ∧
      t.Hash toyExternals = some h ∧ t.Put [5, 6, 7] [116] = some t' ∧
      t'.Prove toyExternals [1, 2, 3] = some (some db, true) ∧
      (∀ n ∈ visited t'.root (FromBytes [1, 2, 3]), Hash toyExternals n ≠ some h) ∧
      ∀ fuel, VerifyProof toyDecode fuel h [1, 2, 3] db = some (.error .ProofIncomplete) := by
  obtain ⟨t, h, t', h1, h2, h3, h4⟩ :=
    C11_stale_root toyExternals toyDecode [([1, 2, 3], [104]), ([1, 2, 3, 4, 5], [119])]
      [5, 6, 7] [116] [1, 2, 3]
  have ht : t = ⟨putNode (.leaf (FromBytes [1, 2, 3]) [104]) (FromBytes [1, 2, 3, 4, 5]) [119]⟩ :=
    Option.some.inj (h1.symm.trans rfl)
  subst ht
  have hh := Option.some.inj (h2.symm.trans rfl)
  subst hh
  have ht' := Option.some.inj (h3.symm.trans rfl)
  subst ht'
  have hv : ∀ n ∈ visited (Trie.root ⟨putNode (putNode (.leaf (FromBytes [1, 2, 3]) [104])
      (FromBytes [1, 2, 3, 4, 5]) [119]) (FromBytes [5, 6, 7]) [116]⟩) (FromBytes [1, 2, 3]),
      Hash toyExternals n ≠ Hash toyExternals
        (putNode (.leaf (FromBytes [1, 2, 3]) [104]) (FromBytes [1, 2, 3, 4, 5]) [119]) := by
    decide
  exact ⟨_, _, _, _, h1, h2, h3, rfl, hv, h4 _ true rfl hv⟩

set_option maxRecDepth 100000 in
/-- C11, as stated, fails. First, a `Put` of a pair the trie already holds
leaves the trie as it was, and the proof made afterwards verifies against the
hash captured before. Second, a `Put` of a new key changes the hash, yet the
old root reappears as a node on the path of a key in the new trie (the keys
`11` and `2211`, then `222211`, all with the same value): the proof of `2211`
made afterwards holds an entry under the old root hash, and verification
against it returns the value. -/
theorem C11_counterexample :
    toyExternals.Faithful ∧ (∀ r, toyDecode (toyExternals.EncodeToBytes r) = some r) ∧
    (∃ t h t' db, fromPuts [([1, 2, 3], [104]), ([1, 2, 3, 4, 5], [119])] = some t ∧
      t.Hash toyExternals = some h ∧ t.Put [1, 2, 3] [104] = some t' ∧
      t'.Prove toyExternals [1, 2, 3] = some (some db, true) ∧
      ∀ fuel, VerifyProof toyDecode (fuel + 2) h [1, 2, 3] db = some (.ok [104])) ∧
    ∃ t h t' h' db, fromPuts [([0x11], [7]), ([0x22, 0x11], [7])] = some t ∧
      t.Hash toyExternals = some h ∧ t.Get [0x22, 0x22, 0x11] = ([], false) ∧
      t.Put [0x22, 0x22, 0x11] [7] = some t' ∧
      t'.Hash toyExternals = some h' ∧ h' ≠ h ∧
      t'.Prove toyExternals [0x22, 0x11] = some (some db, true) ∧
      ∀ fuel, VerifyProof toyDecode (fuel + 2) h [0x22, 0x11] db = some (.ok [7]) := by
  refine ⟨toyExternals_faithful, toyDecode_encode, ⟨_, _, _, _, rfl, rfl, rfl, rfl, ?_⟩,
    _, _, _, _, _, rfl, rfl, rfl, rfl, rfl, by decide, rfl, ?_⟩
  · intro fuel
    rfl
  · intro fuel
    rfl

/-! ## Extensions of a trie built by `Put`; `Put` never fails -/

/-- C21: in every trie obtained from the empty trie by any sequence of `Put`
calls, every extension node of the tree has a path of length at least 1. -/
theorem C21_extension_path_nonempty (ops : List (Bytes × Bytes)) :
    ∃ t, fromPuts ops = some t ∧
      ∀ p n, Reachable t.root (.ext p n) → 1 ≤ p.length := by
  refine ⟨_, fromPuts_eq ops, fun p n hr => ?_⟩
  have hwf : WF (.ext p n) := WF_of_reachable _ _ hr (WF_putsNode (nibbleOps ops))
  exact List.length_pos.mpr hwf.1

/-- C22: for every trie obtained by a sequence of `Put` calls, every key and
every value, `Put` returns; the loop of `Put` returns on every tree, so does
the split of an extension, whose last case is the panic "too many matched";
`PrefixMatchedLen` never exceeds the length of either operand, so the slices
`p[:m]` and `r[m:]` are within bounds, and the nibbles of a key are all below
16. -/
theorem C22_put_never_fails (ops : List (Bytes × Bytes)) (k v : Bytes) :
    (∃ t t', fromPuts ops = some t ∧ t.Put k v = some t') ∧
      (∀ (n : Node) (r : List Nibble) (w : Bytes), ∃ n', putLoop n r w = some n') ∧
      (∀ p r : List Nibble,
        PrefixMatchedLen p r ≤ p.length ∧ PrefixMatchedLen p r ≤ r.length) ∧
      (∀ (p : List Nibble) (next : Node) (r : List Nibble) (w : Bytes)
          (h : PrefixMatchedLen p r < p.length),
        ∃ n', putSplitExt p next r w (PrefixMatchedLen p r) h = some n') ∧
      ∀ i ∈ FromBytes k, i.val < 16 := by
  refine ⟨⟨_, _, fromPuts_eq ops, Put_eq _ k v⟩, fun n r w => ⟨_, putLoop_eq_some n r w⟩,
    fun p r => ⟨pml_le_left p r, pml_le_right p r⟩, fun p next r w h => ?_, fun i _ => i.isLt⟩
  have hs := putLoop_eq_some (.ext p next) r w
  simp only [putLoop, h, dif_pos] at hs
  exact ⟨_, hs⟩

/-- C23: in every trie obtained from the empty trie by any sequence of `Put`
calls, the child of every extension node of the tree is a branch, not the nil
node, a leaf or another extension; `Raw()` of every such extension is defined,
and so is `Hash()` of the trie. -/
theorem C23_extension_child_branch (X : Externals) (ops : List (Bytes × Bytes)) :
    ∃ t, fromPuts ops = some t ∧
      (∀ p n, Reachable t.root (.ext p n) →
        (∃ cs val, n = .branch cs val) ∧ n ≠ .empty ∧ (∀ q w, n ≠ .leaf q w) ∧
          (∀ q m, n ≠ .ext q m) ∧ ∃ r, Node.Raw X (.ext p n) = some r) ∧
      ∃ d, t.Hash X = some d := by
  have hroot := WF_putsNode (nibbleOps ops)
  refine ⟨⟨putsNode (nibbleOps ops)⟩, fromPuts_eq ops, fun p n hr => ?_, Hash_isSome X _ hroot⟩
  have hwf : WF (.ext p n) := WF_of_reachable _ _ hr hroot
  obtain ⟨cs, val, hn⟩ := (isBranch_iff n).mp hwf.2.1
  refine ⟨⟨cs, val, hn⟩, ?_, ?_, ?_, Raw_isSome X _ hwf (by simp)⟩
  · rw [hn]; simp
  · intro q w; rw [hn]; simp
  · intro q m; rw [hn]; simp
end MPT
